import Mathlib

/-!
Verification of the robot-framework text-processing tools
(`affected_tests.py`, `robot_retag.py`, `helpers.py`).

Strings are modelled as `List Char`; Python regular-expression scans are
modelled as explicit searches over character lists; Python dictionaries are
modelled as association lists with unique keys; code that can raise is
modelled in `Except`.
-/

namespace RF

/-- Characters matched by the Python regex class for whitespace on ASCII text. -/
def isPySpace (c : Char) : Bool :=
  c = ' ' || c = '\t' || c = '\n' || c = '\r' || c = '\x0b' || c = '\x0c'

/-- Python strings are modelled as lists of characters. -/
abbrev Str := List Char

/-- Python `str.lower()` on ASCII text. -/
def lowerStr (s : Str) : Str := s.map Char.toLower

/-- Boolean membership of a string in a list of strings (Python `in`). -/
def memS (x : Str) : List Str → Bool
  | [] => false
  | y :: ys => if y = x then true else memS x ys

/-- Association-list lookup (Python `dict.get`). -/
def lookupA {α : Type} : List (Str × α) → Str → Option α
  | [], _ => none
  | (k, v) :: m, key => if k = key then some v else lookupA m key

/-- Association-list update (Python `dict.update` with a single key:
replaces the binding of an existing key, otherwise appends). -/
def updateA {α : Type} : List (Str × α) → Str → α → List (Str × α)
  | [], k, v => [(k, v)]
  | (k', v') :: m, k, v => if k' = k then (k, v) :: m else (k', v') :: updateA m k v

/-- Python `str.startswith` / a regex literal anchored at the current scan
position: `startsWith pat l` holds when `pat` is an initial segment of `l`. -/
def startsWith : Str → Str → Bool
  | [], _ => true
  | _ :: _, [] => false
  | a :: as, b :: bs => a = b && startsWith as bs

/-- `get_path_basename`: the file name after the last path separator
(both separator styles are converted first, so either one ends a directory
component). -/
def basenameAux : Str → Str → Str
  | [], acc => acc.reverse
  | c :: cs, acc =>
    if c = '/' ∨ c = '\\' then basenameAux cs [] else basenameAux cs (c :: acc)

def basename (p : Str) : Str := basenameAux p []

/-- Python `re.sub` of dashes and underscores by spaces, used when building
index keys from suite names. -/
def subDashUnderscore (s : Str) : Str :=
  s.map (fun c => if c = '-' ∨ c = '_' then ' ' else c)

/-- Index key `<suite with - and _ replaced>.<name>`, lower-cased. -/
def mkKey (suite name : Str) : Str :=
  lowerStr (subDashUnderscore suite ++ ['.'] ++ name)

/-! The invocation-pattern scan used by `update_affected` and
`popularity_contest`.  The compiled pattern is a consuming alternative
(two-or-more whitespace characters, or one tab), the escaped name matched
case-insensitively, and a zero-width lookahead (two-or-more whitespace
characters, a tab, or the unanchored end of the string, which also matches
just before a final newline). -/

/-- The consumed separator before the name: two-or-more whitespace
characters, or a single tab. -/
def sepOk (sep : Str) : Bool :=
  (decide (2 ≤ sep.length) && sep.all isPySpace) || sep = ['\t']

/-- The lookahead after the name: two-or-more whitespace characters, a tab,
or the end of the text (where a single final newline also counts, matching
an unanchored Python end-of-string). -/
def lookaheadOk : Str → Bool
  | [] => true
  | [c] => c = '\n' || c = '\t'
  | c1 :: c2 :: _ => c1 = '\t' || (isPySpace c1 && isPySpace c2)

/-- Case-insensitive string comparison (the pattern is compiled with the
ignore-case flag). -/
def caseEq (a b : Str) : Bool := lowerStr a == lowerStr b

/-- One attempt of the invocation-pattern match at a fixed start position
(`suf` is the text suffix from that position). -/
def matchAt (name suf : Str) : Bool :=
  (List.range (suf.length + 1)).any (fun k =>
    sepOk (suf.take k) && caseEq ((suf.drop k).take name.length) name &&
      lookaheadOk ((suf.drop k).drop name.length))

/-- The match scan of `update_affected`: try the invocation pattern at every
start position of the body. -/
def findInvocation (name text : Str) : Bool :=
  (List.range (text.length + 1)).any (fun i => matchAt name (text.drop i))

/-- Declarative reading of the invocation pattern: the name occurs
case-insensitively, preceded by two-or-more whitespace characters or a tab,
and followed by two-or-more whitespace characters, a tab, or the end of the
body (a single final newline allowed). -/
def MatchSpec (name text : Str) : Prop :=
  ∃ pre sep occ rest : Str,
    text = pre ++ sep ++ occ ++ rest ∧ sepOk sep = true ∧
      lowerStr occ = lowerStr name ∧ lookaheadOk rest = true

/-! Data model: the dictionaries built by `get_keywords` / `get_test_cases`
hold one record per keyword or test case. -/

/-- A keyword or test-case record.  Keyword records leave `id`, `tags` and
`affected_by` at their defaults; `affected_by` is only populated by
`update_affected`. -/
structure Entry where
  suite : Str := []
  name : Str := []
  path : Str := []
  text : Str := []
  resources : List Str := []
  id : Option Str := none
  tags : List Str := []
  affected_by : List Str := []
deriving DecidableEq, Repr

/-- The per-record body of `update_affected`: collect the searched names whose
invocation pattern matches in the body, lower-case them and remove
duplicates, and store the result in the `affected_by` field. -/
def upd_entry (keyword_list : List Str) (e : Entry) : Entry :=
  { e with affected_by :=
      ((keyword_list.filter (fun n => findInvocation n e.text)).map lowerStr).dedup }

/-- `update_affected`: rebuild the index with an `affected_by` field on every
record. -/
def update_affected (keyword_list : List Str) (data : List (Str × Entry)) :
    List (Str × Entry) :=
  data.map (fun p => (p.1, upd_entry keyword_list p.2))

/-! The spec's literal wording of the match rule, used to compare against
the code's rule. -/

/-- Separator as literally worded in the spec: two-or-more spaces, or a tab. -/
def claimSepOk (sep : Str) : Bool :=
  (decide (2 ≤ sep.length) && sep.all (fun c => c = ' ')) || sep = ['\t']

/-- Lookahead as literally worded in the spec: two-or-more spaces, a tab, or
end-of-line. -/
def claimLookaheadOk : Str → Bool
  | [] => true
  | '\n' :: _ => true
  | '\t' :: _ => true
  | c1 :: c2 :: _ => c1 = ' ' && c2 = ' '
  | [_] => false

/-- The match rule exactly as the spec words it. -/
def ClaimMatch (name text : Str) : Prop :=
  ∃ pre sep occ rest : Str,
    text = pre ++ sep ++ occ ++ rest ∧ claimSepOk sep = true ∧
      lowerStr occ = lowerStr name ∧ claimLookaheadOk rest = true

/-! The affected-by closure loop of `main`. -/

/-- Mutable state of the `while` loop in `main`: the keyword blacklist, the
resource (file-name) blacklist, and the `affected_keywords` accumulator
(only its `affected_by` field is ever read back). -/
structure LoopState where
  kb : List Str
  rb : List Str
  ak : List (Str × List Str)
deriving DecidableEq, Repr

/-- Lower-case a list of strings and remove duplicates: the normalization
`list(set([i.lower() for i in ...]))` applied to the keyword blacklist.
(Python iterates the set in an unspecified order; only membership and
cardinality of the result are ever used.) -/
def canon (l : List Str) : List Str := (l.map lowerStr).dedup

/-- The affected-by list accumulated for one record: any previously stored
list for this key, extended with the record's current `affected_by`,
lower-cased and deduplicated. -/
def accumulatedAffected (s : LoopState) (key : Str) (e : Entry) : List Str :=
  ((((lookupA s.ak key).getD []) ++ e.affected_by).map lowerStr).dedup

/-- One record of the `for name, data in updated_data.items()` body inside
the closure loop: skip records with an empty `affected_by` or an empty file
name; add the keyword name (and, for a direct seed match, the file name)
to the blacklists when the seed is in the accumulated affected-by list, or
when the record's file or one of its imported resources is already
resource-blacklisted; store the accumulated list; then normalize the
keyword blacklist. -/
def stepEntry (seed : Str) (s : LoopState) (key : Str) (e : Entry) : LoopState :=
  if e.affected_by.isEmpty then s
  else
    let file_name := basename e.path
    let resource_list := e.resources.map basename
    let affected_by := accumulatedAffected s key e
    if file_name.isEmpty then s
    else
      let kbrb :=
        if memS (lowerStr seed) affected_by then (s.kb ++ [e.name], s.rb ++ [file_name])
        else if memS file_name s.rb then (s.kb ++ [e.name], s.rb)
        else if resource_list.any (fun r => memS r s.rb) then (s.kb ++ [e.name], s.rb)
        else (s.kb, s.rb)
      { kb := canon kbrb.1, rb := kbrb.2, ak := updateA s.ak key affected_by }

/-- One iteration of the `while` loop: run `update_affected` with the current
blacklist over the keyword index, then process every record in order. -/
def step (kd : List (Str × Entry)) (seed : Str) (s : LoopState) : LoopState :=
  (update_affected s.kb kd).foldl (fun s' p => stepEntry seed s' p.1 p.2) s

/-- State on entry to the loop: the blacklist seeded with the lower-cased
seed keyword. -/
def initState (seed : Str) : LoopState := { kb := [lowerStr seed], rb := [], ak := [] }

/-- The `while` loop itself: it runs the body, and exits as soon as an
iteration leaves the length of the keyword blacklist unchanged (the
`affected_count != len(keyword_blacklist)` test).  The fuel argument only
bounds the number of iterations; the termination theorem shows that
`kd.length + 1` fuel always reaches the exit condition. -/
def loopRun (kd : List (Str × Entry)) (seed : Str) : Nat → LoopState → LoopState
  | 0, s => s
  | fuel + 1, s =>
    let s' := step kd seed s
    if s'.kb.length = s.kb.length then s' else loopRun kd seed fuel s'

/-- The state after `n` unconditional iterations of the loop body. -/
def stepN (kd : List (Str × Entry)) (seed : Str) : Nat → LoopState
  | 0 => initState seed
  | n + 1 => step kd seed (stepN kd seed n)

/-- Every string the keyword blacklist can ever contain: the lower-cased
seed and the lower-cased keyword names of the index. -/
def allNames (kd : List (Str × Entry)) (seed : Str) : List Str :=
  lowerStr seed :: kd.map (fun p => lowerStr p.2.name)

/-- Invariant of the closure loop: the blacklist is normalized (lower-cased
and duplicate-free) and drawn from the names of the index plus the seed. -/
def InvKb (kd : List (Str × Entry)) (seed : Str) (s : LoopState) : Prop :=
  canon s.kb = s.kb ∧ ∀ x ∈ s.kb, x ∈ allNames kd seed

/-- The test-case filter at the end of `main`: keep the records whose
`affected_by` is non-empty and, when required tags were given, whose tag
list contains every required tag (compared lower-cased). -/
def affectedTestCases (kb tagsReq : List Str) (tcd : List (Str × Entry)) :
    List (Str × Entry) :=
  let tl := tagsReq.map lowerStr
  (update_affected kb tcd).filter
    (fun p => !p.2.affected_by.isEmpty &&
      (tl.isEmpty || tl.all (fun t => memS t (p.2.tags.map lowerStr))))

/-! Section-to-block splitting and per-block field extraction
(`get_keywords` / `get_test_cases`). -/

/-- Split a text into lines, each keeping its terminating newline; a final
fragment without a newline is also a line, and a trailing newline does not
create an empty final line. -/
def linesAux : Str → Str → List Str
  | [], acc => if acc.isEmpty then [] else [acc.reverse]
  | c :: cs, acc =>
    if c = '\n' then (acc.reverse ++ ['\n']) :: linesAux cs [] else linesAux cs (c :: acc)

def linesWithNL (text : Str) : List Str := linesAux text []

/-- A line where a block match can start: its first character is a word
character or an opening bracket, and at least one further character follows
(the pattern consumes the start character and then one-or-more characters). -/
def isStartLine (l : Str) : Bool :=
  match l with
  | c :: _ :: _ => c.isAlphanum || c = '_' || c = '['
  | _ => false

/-- A line at which a running block match stops: its first character is
neither whitespace nor the comment character. -/
def isBoundaryLine (l : Str) : Bool :=
  match l with
  | c :: _ => !isPySpace c && !(c = '#')
  | [] => false

/-- The block scan: at each start line, the block is that line together with
every following line up to (excluding) the next boundary line or the end of
the section. -/
def scanBlocks : List Str → List Str
  | [] => []
  | l :: ls =>
    if isStartLine l then
      (l ++ (ls.takeWhile (fun x => !isBoundaryLine x)).flatten) :: scanBlocks ls
    else scanBlocks ls

/-- Blocks of a section text, as found by the block-splitting scan. -/
def splitBlocks (text : Str) : List Str := scanBlocks (linesWithNL text)

/-- Declarative form of block splitting with a start-line predicate `p`:
a block begins at every line satisfying `p` and runs until the next
boundary line or the end of the text. -/
def blocksBy (p : Str → Bool) (lines : List Str) : List Str :=
  (List.range lines.length).filterMap (fun i =>
    if p (lines.getD i []) then
      some ((lines.getD i []) ++
        ((lines.drop (i + 1)).takeWhile (fun x => !isBoundaryLine x)).flatten)
    else none)

/-- Block splitting exactly as the spec words it: a block starts at every
line whose first character is non-whitespace and not the comment character. -/
def claimBlocks (text : Str) : List Str := blocksBy isBoundaryLine (linesWithNL text)

/-- Name extraction attempted on one line of a block: the line must begin
with a word character or an opening bracket and contain at least one more
character; the match then runs up to (excluding) the first comment character
after the second position, or the end of the line. -/
def parseNameLine (line : Str) : Option Str :=
  match line with
  | c0 :: c1 :: rest =>
    if c0.isAlphanum || c0 = '_' || c0 = '[' then
      some (c0 :: c1 :: rest.takeWhile (fun x => !(x = '#')))
    else none
  | _ => none

/-- Python `str.strip()`: remove leading and trailing whitespace. -/
def pyStrip (l : Str) : Str :=
  ((l.dropWhile isPySpace).reverse.dropWhile isPySpace).reverse

/-- Split a text at newlines into the line contents, as the positions where
a multiline-anchored pattern may start (a trailing newline contributes a
final empty position). -/
def splitLinesAux : Str → Str → List Str
  | [], acc => [acc.reverse]
  | c :: cs, acc =>
    if c = '\n' then acc.reverse :: splitLinesAux cs [] else splitLinesAux cs (c :: acc)

def splitLines (l : Str) : List Str := splitLinesAux l []

/-- Block-name extraction: the first line of the block on which the name
pattern matches, whitespace-trimmed.  `none` models the uncaught
exception raised by `name[0]` when no line matches. -/
def parseName (block : Str) : Option Str :=
  ((splitLines block).findSome? parseNameLine).map pyStrip

/-- Well-formedness of a line decomposition: every line except possibly the
last ends with a newline and contains no interior newline; a final line may
lack the newline but is then non-empty. -/
inductive LinesOK : List Str → Prop
  | nil : LinesOK []
  | last (l : Str) : l ≠ [] → '\n' ∉ l → LinesOK [l]
  | cons (c : Str) (rest : List Str) : '\n' ∉ c → LinesOK rest →
      LinesOK ((c ++ ['\n']) :: rest)

/-- Python `str.split()`: split on runs of whitespace, dropping empty
pieces. -/
def pySplitAux : Str → Str → List Str
  | [], acc => if acc.isEmpty then [] else [acc.reverse]
  | c :: cs, acc =>
    if isPySpace c then
      if acc.isEmpty then pySplitAux cs [] else acc.reverse :: pySplitAux cs []
    else pySplitAux cs (c :: acc)

def pySplit (l : Str) : List Str := pySplitAux l []

/-- The literal `[Tags]` marker. -/
def tagsMarker : Str := ['[', 'T', 'a', 'g', 's', ']']

/-- The tags-line scan: the first position where the `[Tags]` marker is
followed by at least one character on the same line; the result is that
remainder of the line. -/
def parseTagsAux : Str → Option Str
  | [] => none
  | c :: cs =>
    if startsWith tagsMarker (c :: cs) then
      let line := ((c :: cs).drop 6).takeWhile (fun x => !(x = '\n'))
      if line.isEmpty then parseTagsAux cs else some line
    else parseTagsAux cs

/-- Tag extraction from a block: the first tags line, whitespace-split;
an absent tags line defaults to the empty list. -/
def parseTags (block : Str) : List Str :=
  match parseTagsAux block with
  | none => []
  | some line => pySplit line

/-- One keyword record of `get_keywords` built from a block; `none` models
the uncaught exception when the name pattern matches on no line of the
block. -/
def keywordOfBlock (suite path : Str) (resources : List Str) (block : Str) :
    Except Unit (Str × Entry) :=
  match parseName block with
  | none => Except.error ()
  | some name =>
    Except.ok (mkKey suite name,
      { suite := suite, name := name, path := path, text := block,
        resources := resources })

/-- The block loop of `get_keywords` over one keyword section: records are
built in order, and the first block whose name extraction fails aborts the
whole parse (the uncaught exception). -/
def keywordsOfSectionAux (suite path : Str) (resources : List Str) :
    List Str → Except Unit (List (Str × Entry))
  | [] => Except.ok []
  | b :: bs =>
    match keywordOfBlock suite path resources b with
    | Except.error e => Except.error e
    | Except.ok kv =>
      match keywordsOfSectionAux suite path resources bs with
      | Except.error e => Except.error e
      | Except.ok rest => Except.ok (kv :: rest)

/-- All keyword records of one keyword section. -/
def keywordsOfSection (suite path : Str) (resources : List Str)
    (sectionText : Str) : Except Unit (List (Str × Entry)) :=
  keywordsOfSectionAux suite path resources (splitBlocks sectionText)

/-! Index building with duplicate detection (the dictionary-update loops of
`get_keywords` / `get_test_cases`). -/

/-- Fold of the per-block dictionary updates: a warning is recorded whenever
the key is already bound, and the new record then replaces the old one. -/
def buildIndexAux : List (Str × Entry) → List (Str × Entry) → List Str →
    List (Str × Entry) × List Str
  | [], m, w => (m, w)
  | p :: rest, m, w =>
    buildIndexAux rest (updateA m p.1 p.2)
      (if (lookupA m p.1).isSome then w ++ [p.1] else w)

/-- The keyword/test-case index together with the list of duplicate-name
warnings, built from the parsed records in file order. -/
def buildIndex (inserts : List (Str × Entry)) : List (Str × Entry) × List Str :=
  buildIndexAux inserts [] []

/-- Number of parsed records carrying a given key. -/
def countK (k : Str) (inserts : List (Str × Entry)) : Nat :=
  inserts.countP (fun p => decide (p.1 = k))

/-! The retagging tool (`robot_retag.py`). -/

/-- Python `'  '.join(...)`. -/
def tagsJoin : List Str → Str
  | [] => []
  | [t] => t
  | t :: t' :: ts => t ++ [' ', ' '] ++ tagsJoin (t' :: ts)

/-- The replacement text written after the `[Tags]` marker: two spaces
followed by the stripped, two-space-joined tag list. -/
def tagsRepl (ts : List Str) : Str := [' ', ' '] ++ pyStrip (tagsJoin ts)

/-- The tags-line substitution: every occurrence of the `[Tags]` marker
followed by at least one character on the same line has that remainder of
the line replaced by `repl`. -/
def rewriteTagsAux (repl : Str) : Str → Str
  | [] => []
  | c :: cs =>
    if startsWith tagsMarker (c :: cs) = true then
      let rest := (c :: cs).drop 6
      let line := rest.takeWhile (fun x => !(x = '\n'))
      if line.isEmpty then c :: rewriteTagsAux repl cs
      else tagsMarker ++ repl ++ rewriteTagsAux repl (rest.drop line.length)
    else c :: rewriteTagsAux repl cs
termination_by l => l.length
decreasing_by
  all_goals simp_all [List.length_drop]
  omega

/-- Rewrite the tags line of a test-case block with a new tag list. -/
def rewriteTags (ts : List Str) (block : Str) : Str :=
  rewriteTagsAux (tagsRepl ts) block

/-- The duplicate-removal loop at the end of the retag computation: strip
each tag and keep the first occurrence of each distinct stripped tag. -/
def dedupStripAux : List Str → List Str → List Str
  | acc, [] => acc.reverse
  | acc, i :: rest =>
    if memS (pyStrip i) acc then dedupStripAux acc rest
    else dedupStripAux (pyStrip i :: acc) rest

def dedupStrip (l : List Str) : List Str := dedupStripAux [] l

/-- The tag computation of the retag `main`: drop the tags whose lower-case
form is among the tags to remove, append the new tags, re-append the test
id when its lower-case form is absent, and remove duplicates (stripped). -/
def computeRetagTags (test_tags : List Str) (test_id : Option Str)
    (new_tags remove_tags : List Str) : List Str :=
  let removeL := remove_tags.map lowerStr
  let tags1 :=
    if removeL.isEmpty then test_tags
    else test_tags.filter (fun i => !memS (lowerStr i) removeL)
  let tags2 := tags1 ++ new_tags
  let tags3 :=
    match test_id with
    | none => tags2
    | some tid =>
      if memS (lowerStr tid) (tags2.map lowerStr) then tags2 else tags2 ++ [tid]
  dedupStrip tags3

/-- The original tags that survive removal: those whose lower-case form is
not among the lower-cased tags to remove. -/
def retagKept (test_tags remove_tags : List Str) : List Str :=
  test_tags.filter (fun i => !memS (lowerStr i) (remove_tags.map lowerStr))

/-- The tag set as the round-trip claim words it: (original minus removed,
compared lower-cased) union the new tags, with the test id appended when
its lower-case form is not already present. -/
def retagUnion (test_tags : List Str) (test_id : Option Str)
    (new_tags remove_tags : List Str) : List Str :=
  match test_id with
  | none => retagKept test_tags remove_tags ++ new_tags
  | some tid =>
    if memS (lowerStr tid)
        ((retagKept test_tags remove_tags ++ new_tags).map lowerStr) then
      retagKept test_tags remove_tags ++ new_tags
    else retagKept test_tags remove_tags ++ new_tags ++ [tid]

/-- A tag is well formed when it is non-empty and free of whitespace, of
the opening bracket, and of the backslash (whitespace-split tags satisfy
the first two automatically; the bracket keeps a tag from forming a new
tags marker, and the backslash keeps the substitution's replacement text
literal). -/
def wfTag (t : Str) : Prop :=
  t ≠ [] ∧ ∀ c ∈ t, isPySpace c = false ∧ c ≠ '[' ∧ c ≠ '\\'

instance wfTag_decidable (t : Str) : Decidable (wfTag t) := by
  unfold wfTag
  infer_instance

/-! The `failsafe` decorator (`helpers.py`). -/

/-- A Python callable that can raise, modelled as a function into `Except`. -/
def failsafe {α ε β : Type} (func : α → Except ε β) : α → Except ε (Option β) :=
  fun args =>
    match func args with
    | Except.ok _ => Except.ok none
    | Except.error _ => Except.ok none

/-! Concrete fixtures used to evaluate the model on explicit inputs. -/

/-- A keyword `K1` in `f1.robot` whose body invokes the seed keyword `a`. -/
def cexE1 : Entry :=
  { name := "K1".toList, path := "f1.robot".toList, text := "    a  \n".toList }

/-- A keyword `K2` in `f2.robot` (no resource imports) whose body invokes
`K1` but not the seed. -/
def cexE2 : Entry :=
  { name := "K2".toList, path := "f2.robot".toList, text := "    K1  \n".toList }

/-- A two-keyword index for the closure loop. -/
def cexKd : List (Str × Entry) := [("f1.k1".toList, cexE1), ("f2.k2".toList, cexE2)]

/-- The state of the closure loop on `cexKd` with seed `a` after it reaches
its exit condition (fuel 3 = index size + 1 suffices). -/
def cexFinal : LoopState := loopRun cexKd "a".toList 3 (initState "a".toList)

/-- A loop state whose resource blacklist already holds `f1.robot`. -/
def wS : LoopState :=
  { kb := ["a".toList], rb := ["f1.robot".toList], ak := [] }

/-- The record `K1` as it appears after `update_affected` marked it affected
by the seed `a`. -/
def wE : Entry := { cexE1 with affected_by := ["a".toList] }

/-- A keyword `Kw` defined in file `x/aaa.robot`. -/
def c8a : Str × Entry :=
  (mkKey "aaa".toList "Kw".toList,
    { suite := "aaa".toList, name := "Kw".toList, path := "x/aaa.robot".toList })

/-- A keyword with the same name `Kw` defined in the distinct file
`y/bbb.robot`. -/
def c8b : Str × Entry :=
  (mkKey "bbb".toList "Kw".toList,
    { suite := "bbb".toList, name := "Kw".toList, path := "y/bbb.robot".toList })

/-! ## Theorems -/

theorem toLower_toLower (c : Char) : c.toLower.toLower = c.toLower := by
  unfold Char.toLower
  by_cases h : c.toNat ≥ 65 ∧ c.toNat ≤ 90
  · rw [if_pos h]
    have hv : (c.toNat + 32).isValidChar := Or.inl (by omega)
    have ht : (Char.ofNat (c.toNat + 32)).toNat = c.toNat + 32 := by
      unfold Char.ofNat
      rw [dif_pos hv]
      rfl
    rw [ht, if_neg (by omega)]
  · rw [if_neg h, if_neg h]

theorem lowerStr_lowerStr (s : Str) : lowerStr (lowerStr s) = lowerStr s := by
  simp [lowerStr, List.map_map, Function.comp_def, toLower_toLower]

theorem lowerStr_length (s : Str) : (lowerStr s).length = s.length := by
  simp [lowerStr]

theorem memS_iff {x : Str} {l : List Str} : memS x l = true ↔ x ∈ l := by
  induction l with
  | nil => simp [memS]
  | cons y ys ih =>
    simp only [memS, List.mem_cons]
    by_cases h : y = x
    · simp [h]
    · simp only [if_neg h, ih]
      constructor
      · exact fun hm => Or.inr hm
      · rintro (h1 | h2)
        · exact absurd h1.symm h
        · exact h2

theorem lookupA_updateA {α : Type} (m : List (Str × α)) (k k' : Str) (v : α) :
    lookupA (updateA m k v) k' = if k = k' then some v else lookupA m k' := by
  induction m with
  | nil => simp [updateA, lookupA]
  | cons p m ih =>
    obtain ⟨k0, v0⟩ := p
    by_cases h : k0 = k
    · subst h
      by_cases h' : k0 = k'
      · subst h'; simp [updateA, lookupA]
      · simp [updateA, lookupA, h']
    · have hu : updateA ((k0, v0) :: m) k v = (k0, v0) :: updateA m k v := by
        simp [updateA, h]
      rw [hu]
      by_cases h' : k0 = k'
      · subst h'
        simp only [lookupA, eq_self_iff_true, if_true]
        rw [if_neg (fun he => h he.symm)]
      · simp [lookupA, h', ih]

theorem startsWith_iff_take (pat l : Str) :
    startsWith pat l = true ↔ l.take pat.length = pat := by
  induction pat generalizing l with
  | nil => simp [startsWith]
  | cons a as ih =>
    cases l with
    | nil => simp [startsWith]
    | cons b bs =>
      simp only [startsWith, List.length_cons, List.take_succ_cons,
        Bool.and_eq_true, decide_eq_true_eq, List.cons.injEq, ih]
      constructor
      · rintro ⟨h1, h2⟩; exact ⟨h1.symm, h2⟩
      · rintro ⟨h1, h2⟩; exact ⟨h1.symm, h2⟩

theorem startsWith_append (pat rest : Str) : startsWith pat (pat ++ rest) = true := by
  induction pat with
  | nil => simp [startsWith]
  | cons a as ih => simp [startsWith, ih]

theorem findInvocation_iff {name text : Str} :
    findInvocation name text = true ↔ MatchSpec name text := by
  constructor
  · intro h
    obtain ⟨i, hi, hmatch⟩ := List.any_eq_true.mp h
    obtain ⟨k, hk, hcond⟩ := List.any_eq_true.mp hmatch
    rw [Bool.and_eq_true, Bool.and_eq_true] at hcond
    obtain ⟨⟨hsep, hname⟩, hla⟩ := hcond
    refine ⟨text.take i, (text.drop i).take k,
      ((text.drop i).drop k).take name.length,
      ((text.drop i).drop k).drop name.length, ?_, hsep, ?_, hla⟩
    · simp only [List.append_assoc, List.take_append_drop]
    · rw [caseEq] at hname
      exact eq_of_beq hname
  · rintro ⟨pre, sep, occ, rest, hdecomp, hsep, hocc, hla⟩
    have hlen : occ.length = name.length := by
      rw [← lowerStr_length occ, hocc, lowerStr_length]
    apply List.any_eq_true.mpr
    refine ⟨pre.length, ?_, ?_⟩
    · apply List.mem_range.mpr
      have hlen3 : text.length = pre.length + sep.length + occ.length + rest.length := by
        rw [hdecomp, List.length_append, List.length_append, List.length_append]
      omega
    · apply List.any_eq_true.mpr
      have hdrop : text.drop pre.length = sep ++ (occ ++ rest) := by
        rw [hdecomp, List.append_assoc, List.append_assoc, List.drop_left]
      refine ⟨sep.length, ?_, ?_⟩
      · apply List.mem_range.mpr
        rw [hdrop, List.length_append]
        omega
      · rw [hdrop, List.take_left, List.drop_left, ← hlen, List.take_left,
          List.drop_left]
        rw [Bool.and_eq_true, Bool.and_eq_true]
        exact ⟨⟨hsep, by simp [caseEq, hocc]⟩, hla⟩

/-- The invocation scan only depends on the lower-cased name. -/
theorem findInvocation_congr {m n : Str} (text : Str)
    (h : lowerStr m = lowerStr n) :
    findInvocation m text = findInvocation n text := by
  have hl : m.length = n.length := by
    rw [← lowerStr_length m, h, lowerStr_length]
  simp only [findInvocation, matchAt, caseEq, h, hl]

theorem upd_entry_affected_mem {kb : List Str} {e : Entry} {n : Str} :
    lowerStr n ∈ (upd_entry kb e).affected_by ↔
      ∃ m ∈ kb, findInvocation m e.text = true ∧ lowerStr m = lowerStr n := by
  simp only [upd_entry, List.mem_dedup, List.mem_map, List.mem_filter]
  constructor
  · rintro ⟨m, ⟨hm, hf⟩, he⟩
    exact ⟨m, hm, hf, he⟩
  · rintro ⟨m, hm, hf, he⟩
    exact ⟨m, ⟨hm, hf⟩, he⟩

theorem mem_canon {x : Str} {l : List Str} :
    x ∈ canon l ↔ ∃ y ∈ l, lowerStr y = x := by
  simp [canon, List.mem_dedup, List.mem_map]

theorem canon_lower_fixed {x : Str} {l : List Str} (h : x ∈ canon l) :
    lowerStr x = x := by
  obtain ⟨y, _, hy⟩ := mem_canon.mp h
  rw [← hy, lowerStr_lowerStr]

theorem canon_nodup (l : List Str) : (canon l).Nodup := List.nodup_dedup _

theorem canon_canon (l : List Str) : canon (canon l) = canon l := by
  have hmap : (canon l).map lowerStr = canon l := by
    have : ∀ x ∈ canon l, lowerStr x = x := fun x hx => canon_lower_fixed hx
    calc (canon l).map lowerStr = (canon l).map id := List.map_congr_left this
      _ = canon l := List.map_id _
  rw [canon, hmap, List.dedup_eq_self.mpr (canon_nodup l)]

theorem canon_map_self {l : List Str} (h : canon l = l) :
    l.map lowerStr = l := by
  have : ∀ x ∈ l, lowerStr x = x := fun x hx => canon_lower_fixed (h ▸ hx)
  calc l.map lowerStr = l.map id := List.map_congr_left this
    _ = l := List.map_id _

theorem canon_nodup_self {l : List Str} (h : canon l = l) : l.Nodup := by
  rw [← h]; exact canon_nodup l

theorem length_le_canon_append {l xs : List Str} (h : canon l = l) :
    l.length ≤ (canon (l ++ xs)).length := by
  have hc : canon (l ++ xs) = (l ++ xs.map lowerStr).dedup := by
    rw [canon, List.map_append, canon_map_self h]
  have hsub : l.toFinset ⊆ (l ++ xs.map lowerStr).toFinset := by
    intro a ha
    rw [List.mem_toFinset] at ha ⊢
    exact List.mem_append_left _ ha
  have h1 : l.length = l.toFinset.card := by
    rw [List.card_toFinset, List.dedup_eq_self.mpr (canon_nodup_self h)]
  have h2 : (canon (l ++ xs)).length = (l ++ xs.map lowerStr).toFinset.card := by
    rw [hc, List.card_toFinset]
  rw [h1, h2]
  exact Finset.card_le_card hsub

theorem mem_canon_append {x : Str} {l : List Str} {nm : Str} (h : canon l = l)
    (hx : x ∈ canon (l ++ [nm])) : x ∈ l ∨ x = lowerStr nm := by
  obtain ⟨y, hy, hxy⟩ := mem_canon.mp hx
  rcases List.mem_append.mp hy with hy1 | hy2
  · left
    have : lowerStr y = y := canon_lower_fixed (h ▸ hy1)
    rw [← hxy, this]; exact hy1
  · right
    simp only [List.mem_singleton] at hy2
    rw [← hxy, hy2]

theorem stepEntry_kb_cases (seed : Str) (s : LoopState) (key : Str) (e : Entry) :
    (stepEntry seed s key e).kb = s.kb ∨
      (stepEntry seed s key e).kb = canon s.kb ∨
      (stepEntry seed s key e).kb = canon (s.kb ++ [e.name]) := by
  unfold stepEntry
  split
  · left; rfl
  · dsimp only
    split
    · left; rfl
    · dsimp only
      split
      · right; right; rfl
      · split
        · right; right; rfl
        · split
          · right; right; rfl
          · right; left; rfl

theorem stepEntry_rb_cases (seed : Str) (s : LoopState) (key : Str) (e : Entry) :
    (stepEntry seed s key e).rb = s.rb ∨
      (stepEntry seed s key e).rb = s.rb ++ [basename e.path] := by
  unfold stepEntry
  split
  · left; rfl
  · dsimp only
    split
    · left; rfl
    · dsimp only
      split
      · right; rfl
      · split
        · left; rfl
        · split
          · left; rfl
          · left; rfl

theorem stepEntry_inv (kd : List (Str × Entry)) (seed : Str) (s : LoopState)
    (key : Str) (e : Entry) (hInv : InvKb kd seed s)
    (hname : lowerStr e.name ∈ allNames kd seed) :
    InvKb kd seed (stepEntry seed s key e) ∧
      s.kb.length ≤ (stepEntry seed s key e).kb.length := by
  obtain ⟨hc, hsub⟩ := hInv
  rcases stepEntry_kb_cases seed s key e with hk | hk | hk <;> rw [InvKb, hk]
  · exact ⟨⟨hc, hsub⟩, le_refl _⟩
  · rw [hc]
    exact ⟨⟨hc, hsub⟩, le_refl _⟩
  · refine ⟨⟨canon_canon _, ?_⟩, length_le_canon_append hc⟩
    intro x hx
    rcases mem_canon_append hc hx with h1 | h1
    · exact hsub x h1
    · rw [h1]; exact hname

theorem foldl_stepEntry_inv {kd : List (Str × Entry)} {seed : Str}
    (L : List (Str × Entry)) (s : LoopState) (hInv : InvKb kd seed s)
    (hL : ∀ p ∈ L, lowerStr p.2.name ∈ allNames kd seed) :
    InvKb kd seed (L.foldl (fun s' p => stepEntry seed s' p.1 p.2) s) ∧
      s.kb.length ≤ (L.foldl (fun s' p => stepEntry seed s' p.1 p.2) s).kb.length := by
  induction L generalizing s with
  | nil => exact ⟨hInv, le_refl _⟩
  | cons p rest ih =>
    have h1 := stepEntry_inv kd seed s p.1 p.2 hInv (hL p (List.mem_cons_self _ _))
    have h2 := ih (stepEntry seed s p.1 p.2) h1.1
      (fun q hq => hL q (List.mem_cons_of_mem _ hq))
    exact ⟨h2.1, le_trans h1.2 h2.2⟩

theorem step_inv {kd : List (Str × Entry)} {seed : Str} {s : LoopState}
    (hInv : InvKb kd seed s) :
    InvKb kd seed (step kd seed s) ∧ s.kb.length ≤ (step kd seed s).kb.length := by
  apply foldl_stepEntry_inv _ s hInv
  intro p hp
  simp only [update_affected, List.mem_map] at hp
  obtain ⟨q, hq, hpq⟩ := hp
  have : p.2.name = q.2.name := by rw [← hpq]; rfl
  rw [allNames, this]
  exact List.mem_cons_of_mem _ (List.mem_map.mpr ⟨q, hq, rfl⟩)

theorem initState_inv (kd : List (Str × Entry)) (seed : Str) :
    InvKb kd seed (initState seed) := by
  constructor
  · simp [initState, canon, lowerStr_lowerStr]
  · intro x hx
    simp only [initState, List.mem_singleton] at hx
    rw [hx]
    exact List.mem_cons_self _ _

theorem kb_length_le {kd : List (Str × Entry)} {seed : Str} {s : LoopState}
    (hInv : InvKb kd seed s) : s.kb.length ≤ kd.length + 1 := by
  obtain ⟨hc, hsub⟩ := hInv
  have h1 : s.kb.length = s.kb.toFinset.card := by
    rw [List.card_toFinset, List.dedup_eq_self.mpr (canon_nodup_self hc)]
  have h2 : s.kb.toFinset ⊆ (allNames kd seed).toFinset := by
    intro a ha
    rw [List.mem_toFinset] at ha ⊢
    exact hsub a ha
  have h3 : (allNames kd seed).toFinset.card ≤ (allNames kd seed).length :=
    List.toFinset_card_le _
  have h4 : (allNames kd seed).length = kd.length + 1 := by
    simp [allNames]
  have h5 : s.kb.toFinset.card ≤ (allNames kd seed).toFinset.card :=
    Finset.card_le_card h2
  omega

theorem loopRun_stable {kd : List (Str × Entry)} {seed : Str} :
    ∀ f1 f2 : Nat, ∀ s : LoopState, InvKb kd seed s →
      kd.length + 1 < s.kb.length + f1 → kd.length + 1 < s.kb.length + f2 →
      loopRun kd seed f1 s = loopRun kd seed f2 s := by
  intro f1
  induction f1 with
  | zero =>
    intro f2 s hInv h1 _
    exact absurd (kb_length_le hInv) (by omega)
  | succ f1 ih =>
    intro f2 s hInv h1 h2
    cases f2 with
    | zero => exact absurd (kb_length_le hInv) (by omega)
    | succ f2 =>
      obtain ⟨hInv', hmono⟩ := step_inv (s := s) hInv
      by_cases heq : (step kd seed s).kb.length = s.kb.length
      · simp [loopRun, heq]
      · have hgt : s.kb.length + 1 ≤ (step kd seed s).kb.length := by omega
        simp only [loopRun, if_neg heq]
        exact ih f2 (step kd seed s) hInv' (by omega) (by omega)

theorem upd_entry_affected_nonempty {kb : List Str} {e : Entry} :
    (upd_entry kb e).affected_by ≠ [] ↔
      ∃ m ∈ kb, findInvocation m e.text = true := by
  simp only [upd_entry, ne_eq, List.dedup_eq_nil, List.map_eq_nil_iff,
    List.filter_eq_nil_iff, not_forall]
  constructor
  · rintro ⟨m, hm, hf⟩
    exact ⟨m, hm, by simpa using hf⟩
  · rintro ⟨m, hm, hf⟩
    exact ⟨m, hm, by simpa using hf⟩

theorem nodup_keys_eq {l : List (Str × Entry)} (h : (l.map Prod.fst).Nodup)
    {k : Str} {a b : Entry} (ha : (k, a) ∈ l) (hb : (k, b) ∈ l) : a = b := by
  induction l with
  | nil => cases ha
  | cons p rest ih =>
    rw [List.map_cons, List.nodup_cons] at h
    rcases List.mem_cons.mp ha with ha1 | ha1 <;>
      rcases List.mem_cons.mp hb with hb1 | hb1
    · exact congrArg Prod.snd (ha1.trans hb1.symm)
    · exact absurd (List.mem_map.mpr ⟨(k, b), hb1, by rw [← ha1]⟩) h.1
    · exact absurd (List.mem_map.mpr ⟨(k, a), ha1, by rw [← hb1]⟩) h.1
    · exact ih h.2 ha1 hb1

theorem stepN_inv (kd : List (Str × Entry)) (seed : Str) (n : Nat) :
    InvKb kd seed (stepN kd seed n) := by
  induction n with
  | zero => exact initState_inv kd seed
  | succ n ih => exact (step_inv ih).1

/-- Claim C2: the blacklist-growth loop terminates for every finite keyword
index: each iteration either strictly enlarges the deduplicated, lower-cased
keyword blacklist or leaves its length unchanged; the blacklist length is
bounded by the number of keywords plus the seed; and running the loop with
any fuel of at least `kd.length + 1` gives the same result as with exactly
`kd.length + 1` iterations of fuel, i.e. the loop has exited at the first
iteration that adds no new keyword name. -/
theorem blacklist_loop_termination (kd : List (Str × Entry)) (seed : Str)
    (fuel : Nat) (h : kd.length + 1 ≤ fuel) :
    loopRun kd seed fuel (initState seed) =
      loopRun kd seed (kd.length + 1) (initState seed) ∧
    (∀ n : Nat, (stepN kd seed n).kb.length ≤ (stepN kd seed (n + 1)).kb.length) ∧
    (∀ n : Nat, (stepN kd seed n).kb.length ≤ kd.length + 1) := by
  refine ⟨?_, ?_, ?_⟩
  · have hinit : InvKb kd seed (initState seed) := initState_inv kd seed
    have hlen : (initState seed).kb.length = 1 := by simp [initState]
    exact loopRun_stable fuel (kd.length + 1) (initState seed) hinit
      (by omega) (by omega)
  · intro n
    exact (step_inv (stepN_inv kd seed n)).2
  · intro n
    exact kb_length_le (stepN_inv kd seed n)

/-- Witness for claim C2 at a concrete input: the empty index with seed `a`
and fuel 1. -/
theorem blacklist_loop_termination_witness :
    (([] : List (Str × Entry)).length + 1 ≤ 1) ∧
    (loopRun [] "a".toList 1 (initState "a".toList) =
      loopRun [] "a".toList (([] : List (Str × Entry)).length + 1)
        (initState "a".toList) ∧
    (∀ n : Nat, (stepN [] "a".toList n).kb.length ≤
      (stepN [] "a".toList (n + 1)).kb.length) ∧
    (∀ n : Nat, (stepN [] "a".toList n).kb.length ≤
      ([] : List (Str × Entry)).length + 1)) :=
  ⟨by decide, blacklist_loop_termination [] "a".toList 1 (by decide)⟩

/-- Claim C1 counterexample: on the concrete index `cexKd` with seed `a`,
the loop reaches its exit condition (the blacklist length no longer grows),
the body of keyword `K2` contains an invocation of the blacklisted name
`k1` (its `affected_by` under the final blacklist is non-empty), yet
neither `K2`'s name nor its owning file name is ever added to the
blacklists. -/
theorem affected_closure_cex :
    (step cexKd "a".toList cexFinal).kb.length = cexFinal.kb.length ∧
    findInvocation "k1".toList cexE2.text = true ∧
    "k1".toList ∈ cexFinal.kb ∧
    lowerStr "k1".toList ∈ (upd_entry cexFinal.kb cexE2).affected_by ∧
    lowerStr cexE2.name ∉ cexFinal.kb ∧
    basename cexE2.path ∉ cexFinal.rb := by
  decide

/-- Claim C1 (amended): in the closure loop body, a keyword record with a
non-empty `affected_by` and a non-empty file name has its name and its
owning file name added to the blacklists only when the seed keyword itself
is in its accumulated affected-by list; otherwise its name alone is added,
and only when its file name or one of its imported resource file names is
already on the resource blacklist; in all remaining cases nothing is
added. -/
theorem affected_closure_branches (seed : Str) (s : LoopState) (key : Str)
    (e : Entry) (hcanon : canon s.kb = s.kb)
    (hne : e.affected_by ≠ []) (hfile : basename e.path ≠ []) :
    (memS (lowerStr seed) (accumulatedAffected s key e) = true →
      lowerStr e.name ∈ (stepEntry seed s key e).kb ∧
        basename e.path ∈ (stepEntry seed s key e).rb) ∧
    (memS (lowerStr seed) (accumulatedAffected s key e) = false →
      (memS (basename e.path) s.rb = true ∨
        (e.resources.map basename).any (fun r => memS r s.rb) = true) →
      lowerStr e.name ∈ (stepEntry seed s key e).kb ∧
        (stepEntry seed s key e).rb = s.rb) ∧
    (memS (lowerStr seed) (accumulatedAffected s key e) = false →
      memS (basename e.path) s.rb = false →
      (e.resources.map basename).any (fun r => memS r s.rb) = false →
      (stepEntry seed s key e).kb = s.kb ∧ (stepEntry seed s key e).rb = s.rb) := by
  have hne' : e.affected_by.isEmpty = false := by
    cases hl : e.affected_by with
    | nil => exact absurd hl hne
    | cons a l => rfl
  have hfile' : (basename e.path).isEmpty = false := by
    cases hl : basename e.path with
    | nil => exact absurd hl hfile
    | cons a l => rfl
  have hmemname : lowerStr e.name ∈ canon (s.kb ++ [e.name]) :=
    mem_canon.mpr ⟨e.name, List.mem_append_right _ (List.mem_singleton.mpr rfl), rfl⟩
  refine ⟨fun h1 => ?_, fun h1 h2 => ?_, fun h1 h2 h3 => ?_⟩
  · simp only [stepEntry, hne', hfile', Bool.false_eq_true, if_false, h1, if_true]
    exact ⟨hmemname, List.mem_append_right _ (List.mem_singleton.mpr rfl)⟩
  · rcases h2 with h2 | h2
    · simp only [stepEntry, hne', hfile', Bool.false_eq_true, if_false, h1, h2,
        if_true]
      exact ⟨hmemname, trivial⟩
    · simp only [stepEntry, hne', hfile', Bool.false_eq_true, if_false, h1, h2,
        if_true]
      by_cases h4 : memS (basename e.path) s.rb = true
      · simp only [h4, if_true]
        exact ⟨hmemname, trivial⟩
      · simp only [Bool.not_eq_true] at h4
        simp only [h4, Bool.false_eq_true, if_false]
        exact ⟨hmemname, trivial⟩
  · simp only [stepEntry, hne', hfile', Bool.false_eq_true, if_false, h1, h2, h3]
    exact ⟨hcanon, trivial⟩

theorem linesOK_linesAux : ∀ (text acc : Str), '\n' ∉ acc →
    LinesOK (linesAux text acc) := by
  intro text
  induction text with
  | nil =>
    intro acc hacc
    simp only [linesAux]
    split
    · exact LinesOK.nil
    · rename_i hne
      refine LinesOK.last _ ?_ ?_
      · simp only [ne_eq, List.reverse_eq_nil_iff]
        intro h
        rw [h] at hne
        exact hne rfl
      · simp only [List.mem_reverse]
        exact hacc
  | cons c cs ih =>
    intro acc hacc
    simp only [linesAux]
    split
    · rename_i hc
      subst hc
      exact LinesOK.cons acc.reverse _ (by simpa using hacc) (ih [] (by simp))
    · rename_i hc
      exact ih (c :: acc) (by
        intro h
        rcases List.mem_cons.mp h with h | h
        · exact hc h.symm
        · exact hacc h)

theorem linesOK_linesWithNL (text : Str) : LinesOK (linesWithNL text) :=
  linesOK_linesAux text [] (by simp)

theorem linesOK_tail {l : Str} {ls : List Str} (h : LinesOK (l :: ls)) :
    LinesOK ls := by
  cases h with
  | last _ _ _ => exact LinesOK.nil
  | cons _ _ _ hrest => exact hrest

theorem linesOK_head {l : Str} {ls : List Str} (h : LinesOK (l :: ls)) :
    (∃ c, l = c ++ ['\n'] ∧ '\n' ∉ c) ∨ (ls = [] ∧ l ≠ [] ∧ '\n' ∉ l) := by
  cases h with
  | last _ hne hnl => exact Or.inr ⟨rfl, hne, hnl⟩
  | cons c rest hc hrest => exact Or.inl ⟨c, rfl, hc⟩

theorem splitLinesAux_no_nl {c : Str} (h : '\n' ∉ c) :
    ∀ (rest acc : Str),
      splitLinesAux (c ++ rest) acc = splitLinesAux rest (c.reverse ++ acc) := by
  induction c with
  | nil => intro rest acc; simp
  | cons x xs ih =>
    intro rest acc
    have hx : ¬x = '\n' := fun he => h (he ▸ List.mem_cons_self x xs)
    have hxs : '\n' ∉ xs := fun hm => h (List.mem_cons_of_mem _ hm)
    simp only [List.cons_append, splitLinesAux, if_neg hx]
    rw [List.append_eq, ih hxs rest (x :: acc)]
    simp

theorem splitLines_cons_nl {c : Str} (h : '\n' ∉ c) (F : Str) :
    splitLines (c ++ '\n' :: F) = c :: splitLines F := by
  rw [splitLines, splitLinesAux_no_nl h ('\n' :: F) []]
  simp [splitLinesAux, splitLines]

theorem splitLines_no_nl {l : Str} (h : '\n' ∉ l) : splitLines l = [l] := by
  have := splitLinesAux_no_nl h [] []
  rw [List.append_nil] at this
  rw [splitLines, this]
  simp [splitLinesAux]

theorem takeWhile_append_all {p : Char → Bool} {a : Str} (b : Str)
    (h : ∀ x ∈ a, p x = true) : (a ++ b).takeWhile p = a ++ b.takeWhile p := by
  induction a with
  | nil => simp
  | cons x xs ih =>
    have hx := h x (List.mem_cons_self x xs)
    simp [List.takeWhile_cons, hx,
      ih (fun y hy => h y (List.mem_cons_of_mem _ hy))]

theorem scanBlocks_shape {lines : List Str} (hok : LinesOK lines) {b : Str}
    (hb : b ∈ scanBlocks lines) :
    ∃ c0 crest F,
      (b = (c0 :: crest) ++ '\n' :: F ∨ (b = c0 :: crest ∧ F = [])) ∧
      '\n' ∉ (c0 :: crest) ∧
      (c0.isAlphanum || c0 = '_' || c0 = '[') = true := by
  induction lines with
  | nil => cases hb
  | cons l ls ih =>
    rw [scanBlocks] at hb
    by_cases hs : isStartLine l = true
    · rw [if_pos hs] at hb
      rcases List.mem_cons.mp hb with hb1 | hb1
      · rcases linesOK_head hok with ⟨c, hl, hc⟩ | ⟨hls, hne, hnl⟩
        · cases c with
          | nil =>
            rw [hl] at hs
            cases hs
          | cons c0 crest =>
            refine ⟨c0, crest, (ls.takeWhile (fun x => !isBoundaryLine x)).flatten,
              Or.inl ?_, hc, ?_⟩
            · rw [hb1, hl]
              simp
            · rw [hl] at hs
              cases crest with
              | nil => exact hs
              | cons c1 cr => exact hs
        · subst hls
          cases l with
          | nil => exact absurd rfl hne
          | cons c0 crest =>
            refine ⟨c0, crest, [], Or.inr ⟨?_, rfl⟩, hnl, ?_⟩
            · rw [hb1]; simp
            · cases crest with
              | nil => cases hs
              | cons c1 cr => exact hs
      · exact ih (linesOK_tail hok) hb1
    · rw [if_neg hs] at hb
      exact ih (linesOK_tail hok) hb

theorem parseName_of_mem {text b : Str} (hb : b ∈ splitBlocks text)
    (h2 : 2 ≤ (b.takeWhile (fun c => !(c = '\n'))).length) :
    parseName b = some (pyStrip ((b.takeWhile (fun c => !(c = '\n'))).take 2 ++
      ((b.takeWhile (fun c => !(c = '\n'))).drop 2).takeWhile
        (fun c => !(c = '#')))) := by
  obtain ⟨c0, crest, F, hsplit, hnl, hword⟩ :=
    scanBlocks_shape (linesOK_linesWithNL text) hb
  have hall : ∀ x ∈ c0 :: crest, (!(x = '\n')) = true := by
    intro x hx
    simp only [Bool.not_eq_eq_eq_not, Bool.not_true, decide_eq_false_iff_not]
    intro he
    exact hnl (he ▸ hx)
  have hcontent : b.takeWhile (fun c => !(c = '\n')) = c0 :: crest := by
    rcases hsplit with h | ⟨h, _⟩
    · rw [h, takeWhile_append_all _ hall]
      simp [List.takeWhile_cons]
    · rw [h, ← List.append_nil (c0 :: crest), takeWhile_append_all _ hall]
      simp
  have hlines : splitLines b = (c0 :: crest) :: splitLines F ∨
      splitLines b = [c0 :: crest] := by
    rcases hsplit with h | ⟨h, hF⟩
    · exact Or.inl (by rw [h, splitLines_cons_nl hnl])
    · exact Or.inr (by rw [h, splitLines_no_nl hnl])
  rw [hcontent] at h2
  cases crest with
  | nil => simp at h2
  | cons c1 rest =>
    have hline : parseNameLine (c0 :: c1 :: rest) =
        some (c0 :: c1 :: rest.takeWhile (fun x => !(x = '#'))) := by
      rw [parseNameLine, if_pos hword]
    rw [hcontent]
    have hval : (c0 :: c1 :: rest).take 2 ++
        ((c0 :: c1 :: rest).drop 2).takeWhile (fun c => !(c = '#')) =
        c0 :: c1 :: rest.takeWhile (fun x => !(x = '#')) := by
      simp
    rw [hval]
    rcases hlines with h | h <;>
      rw [parseName, h] <;> simp [List.findSome?_cons, hline]

theorem blocksBy_cons (p : Str → Bool) (l : Str) (ls : List Str) :
    blocksBy p (l :: ls) =
      (if p l then
        [l ++ ((ls.takeWhile (fun x => !isBoundaryLine x)).flatten)]
      else []) ++ blocksBy p ls := by
  rw [blocksBy, List.length_cons, List.range_succ_eq_map, List.filterMap_cons]
  rw [List.filterMap_map]
  have hfun : ∀ i ∈ List.range ls.length,
      ((fun i =>
        if p ((l :: ls).getD i []) then
          some ((l :: ls).getD i [] ++
            (((l :: ls).drop (i + 1)).takeWhile (fun x => !isBoundaryLine x)).flatten)
        else none) ∘ Nat.succ) i =
      (fun i =>
        if p (ls.getD i []) then
          some (ls.getD i [] ++
            ((ls.drop (i + 1)).takeWhile (fun x => !isBoundaryLine x)).flatten)
        else none) i := by
    intro i _
    simp [Function.comp_def]
  rw [List.filterMap_congr hfun]
  by_cases hp : p l = true
  · simp only [List.getD_cons_zero, hp, if_true, List.drop_succ_cons,
      List.drop_zero, blocksBy]
    rfl
  · simp only [List.getD_cons_zero, Bool.not_eq_true] at hp ⊢
    simp only [hp, Bool.false_eq_true, if_false, blocksBy, List.drop_succ_cons]
    rfl

theorem scanBlocks_eq (lines : List Str) :
    scanBlocks lines = blocksBy isStartLine lines := by
  induction lines with
  | nil => rfl
  | cons l ls ih =>
    rw [scanBlocks, blocksBy_cons]
    by_cases hp : isStartLine l = true
    · rw [if_pos hp, if_pos hp, ih]
      rfl
    · rw [if_neg hp, if_neg hp, ih]
      rfl

/-- Claim C7 counterexample: on the section text `-a`, newline, `B`, two
spaces, `c`, newline, the spec's rule (a block starts at every line whose
first character is non-whitespace and not the comment character) yields two
blocks, one starting at the `-a` line; the code's scan yields only the
block starting at `B`, because the block-start pattern only accepts a word
character or an opening bracket. -/
theorem block_split_cex :
    splitBlocks "-a\nB  c\n".toList = ["B  c\n".toList] ∧
      claimBlocks "-a\nB  c\n".toList =
        ["-a\n".toList, "B  c\n".toList] := by
  constructor
  · decide
  · decide

/-- Claim C7 (amended): a block starts at every line whose first character
is a word character or an opening bracket and which has at least one
further character; it runs until the next line whose first character is
neither whitespace nor the comment character, or the end of the text; and
for a block whose first line has at least two characters before its
newline, the extracted name is the first two characters of that line
followed by the characters up to (excluding) the first comment character
after them, whitespace-trimmed. -/
theorem block_split_rule (text : Str) :
    splitBlocks text = blocksBy isStartLine (linesWithNL text) ∧
    ∀ b ∈ splitBlocks text,
      2 ≤ (b.takeWhile (fun c => !(c = '\n'))).length →
      parseName b = some (pyStrip ((b.takeWhile (fun c => !(c = '\n'))).take 2 ++
        ((b.takeWhile (fun c => !(c = '\n'))).drop 2).takeWhile
          (fun c => !(c = '#')))) :=
  ⟨scanBlocks_eq _, fun _ hb h2 => parseName_of_mem hb h2⟩

/-- Witness for the amended claim C7 at a concrete section. -/
theorem block_split_rule_witness :
    (splitBlocks "Bar  x\n  s\n".toList =
      blocksBy isStartLine (linesWithNL "Bar  x\n  s\n".toList)) ∧
    ("Bar  x\n  s\n".toList ∈ splitBlocks "Bar  x\n  s\n".toList) ∧
    (2 ≤ (("Bar  x\n  s\n".toList).takeWhile (fun c => !(c = '\n'))).length) ∧
    parseName "Bar  x\n  s\n".toList =
      some (pyStrip ((("Bar  x\n  s\n".toList).takeWhile
          (fun c => !(c = '\n'))).take 2 ++
        ((("Bar  x\n  s\n".toList).takeWhile (fun c => !(c = '\n'))).drop
            2).takeWhile (fun c => !(c = '#')))) :=
  ⟨(block_split_rule "Bar  x\n  s\n".toList).1, by decide, by decide,
    (block_split_rule "Bar  x\n  s\n".toList).2 "Bar  x\n  s\n".toList
      (by decide) (by decide)⟩

/-- Claim C6 counterexample: on the keyword-section text `X`, newline, two
spaces, `kw`, newline, the single block's name pattern matches on no line
(the first line has a single character), so the name extraction raises
instead of defaulting and `get_keywords` aborts with an error. -/
theorem parse_raises_cex :
    keywordsOfSection "s".toList "s.robot".toList [] "X\n  kw\n".toList =
      Except.error () ∧
    parseName "X\n  kw\n".toList = none ∧
    "X\n  kw\n".toList ∈ splitBlocks "X\n  kw\n".toList := by
  refine ⟨by rfl, by rfl, by decide⟩

theorem keywordsOfSectionAux_ok (suite path : Str) (resources : List Str)
    (bs : List Str) (h : ∀ b ∈ bs, (parseName b).isSome = true) :
    (keywordsOfSectionAux suite path resources bs).isOk = true := by
  induction bs with
  | nil => rfl
  | cons b rest ih =>
    obtain ⟨nm, hnm⟩ := Option.isSome_iff_exists.mp (h b (List.mem_cons_self _ _))
    have hkb : keywordOfBlock suite path resources b =
        Except.ok (mkKey suite nm,
          { suite := suite, name := nm, path := path, text := b,
            resources := resources }) := by
      rw [keywordOfBlock, hnm]
    rw [keywordsOfSectionAux, hkb]
    have hrest := ih (fun b' hb' => h b' (List.mem_cons_of_mem _ hb'))
    cases hre : keywordsOfSectionAux suite path resources rest with
    | error e => rw [hre] at hrest; cases hrest
    | ok l => rfl

/-- Claim C6 (amended): the regex extractions of the parsers default to
empty on no match (here: a block with no tags line yields the empty tag
list), except the block-name extraction, which raises when the name
pattern matches on no line of the block; when every block's first line has
at least two characters before its newline, the name extraction succeeds on
every block and the keyword parse completes without raising. -/
theorem parse_no_raise (suite path : Str) (resources : List Str) (text : Str)
    (h : ∀ b ∈ splitBlocks text,
      2 ≤ (b.takeWhile (fun c => !(c = '\n'))).length) :
    (keywordsOfSection suite path resources text).isOk = true ∧
    ∀ block : Str, parseTagsAux block = none → parseTags block = [] := by
  constructor
  · apply keywordsOfSectionAux_ok
    intro b hb
    rw [parseName_of_mem hb (h b hb)]
    rfl
  · intro block hnone
    rw [parseTags, hnone]

/-- Witness for the amended claim C6 at a concrete section of two blocks. -/
theorem parse_no_raise_witness :
    (∀ b ∈ splitBlocks "Kw One\n  s\nKw Two\n  t\n".toList,
      2 ≤ (b.takeWhile (fun c => !(c = '\n'))).length) ∧
    ((keywordsOfSection "s".toList "s.robot".toList []
        "Kw One\n  s\nKw Two\n  t\n".toList).isOk = true ∧
      ∀ block : Str, parseTagsAux block = none → parseTags block = []) :=
  ⟨by decide,
    parse_no_raise "s".toList "s.robot".toList []
      "Kw One\n  s\nKw Two\n  t\n".toList (by decide)⟩

theorem buildIndexAux_lookup (ins : List (Str × Entry)) :
    ∀ (m : List (Str × Entry)) (w : List Str) (k : Str),
      lookupA (buildIndexAux ins m w).1 k =
        match ins.reverse.find? (fun p => decide (p.1 = k)) with
        | some p => some p.2
        | none => lookupA m k := by
  induction ins with
  | nil => intro m w k; rfl
  | cons p rest ih =>
    intro m w k
    rw [buildIndexAux]
    rw [ih (updateA m p.1 p.2) _ k]
    rw [List.reverse_cons, List.find?_append]
    cases hfind : rest.reverse.find? (fun q => decide (q.1 = k)) with
    | some q => rfl
    | none =>
      simp only [Option.none_orElse]
      rw [lookupA_updateA]
      by_cases hpk : p.1 = k
      · simp [List.find?, hpk]
      · simp [List.find?, hpk]

theorem buildIndexAux_warn (ins : List (Str × Entry)) :
    ∀ (m : List (Str × Entry)) (w : List Str) (k : Str),
      (k ∈ (buildIndexAux ins m w).2 ↔
        k ∈ w ∨ 2 ≤ countK k ins ∨
          (1 ≤ countK k ins ∧ (lookupA m k).isSome = true)) := by
  induction ins with
  | nil =>
    intro m w k
    simp [buildIndexAux, countK]
  | cons p rest ih =>
    intro m w k
    rw [buildIndexAux]
    rw [ih (updateA m p.1 p.2) _ k]
    by_cases hpk : p.1 = k
    · subst hpk
      have hc1 : countK p.1 (p :: rest) = countK p.1 rest + 1 := by
        simp [countK, List.countP_cons]
      have hlook1 : (lookupA (updateA m p.1 p.2) p.1).isSome = true := by
        rw [lookupA_updateA]
        simp
      rw [hc1, hlook1]
      by_cases hm : (lookupA m p.1).isSome = true
      · rw [if_pos hm]
        simp only [List.mem_append, List.mem_singleton]
        constructor
        · rintro ((hw | hk) | h2 | h3)
          · exact Or.inl hw
          · exact Or.inr (Or.inr ⟨by omega, hm⟩)
          · exact Or.inr (Or.inl (by omega))
          · exact Or.inr (Or.inr ⟨by omega, hm⟩)
        · rintro (hw | h2 | h3)
          · exact Or.inl (Or.inl hw)
          · exact Or.inr (Or.inr ⟨by omega, trivial⟩)
          · exact Or.inl (Or.inr trivial)
      · rw [if_neg hm]
        rw [Bool.not_eq_true] at hm
        constructor
        · rintro (hw | h2 | h3)
          · exact Or.inl hw
          · exact Or.inr (Or.inl (by omega))
          · obtain ⟨h31, _⟩ := h3
            exact Or.inr (Or.inl (by omega))
        · rintro (hw | h2 | h3)
          · exact Or.inl hw
          · exact Or.inr (Or.inr ⟨by omega, rfl⟩)
          · rw [hm] at h3
            cases h3.2
    · have hc2 : countK k (p :: rest) = countK k rest := by
        simp [countK, List.countP_cons, hpk]
      have hlook2 : lookupA (updateA m p.1 p.2) k = lookupA m k := by
        rw [lookupA_updateA, if_neg hpk]
      rw [hc2, hlook2]
      have hw' : k ∈ (if (lookupA m p.1).isSome = true then w ++ [p.1] else w) ↔
          k ∈ w := by
        split
        · simp only [List.mem_append, List.mem_singleton]
          constructor
          · rintro (hw | hk)
            · exact hw
            · exact absurd hk.symm hpk
          · exact fun hw => Or.inl hw
        · exact Iff.rfl
      rw [hw']

theorem tagsMarker_length : tagsMarker.length = 6 := rfl

theorem startsWith_marker_decomp {l : Str}
    (h : startsWith tagsMarker l = true) : l = tagsMarker ++ l.drop 6 := by
  have ht : l.take 6 = tagsMarker := by
    have := (startsWith_iff_take tagsMarker l).mp h
    rwa [tagsMarker_length] at this
  conv_lhs => rw [← List.take_append_drop 6 l]
  rw [ht]

theorem rewriteTagsAux_nil (repl : Str) : rewriteTagsAux repl [] = [] := by
  rw [rewriteTagsAux]

theorem startsWith_marker_cons_ne {p : Char} (hp : p ≠ '[') (l : Str) :
    startsWith tagsMarker (p :: l) = false := by
  show (decide ('[' = p) && startsWith "Tags]".toList l) = false
  rw [decide_eq_false (fun he => hp he.symm), Bool.false_and]

theorem take_le_append {n : Nat} {a : Str} (b : Str) (h : n ≤ a.length) :
    (a ++ b).take n = a.take n := by
  rw [List.take_append_eq_append_take, show n - a.length = 0 from by omega,
    List.take_zero, List.append_nil]

theorem rewriteTagsAux_take (repl : Str) :
    ∀ (N : Nat) (l : Str), l.length ≤ N → ∀ n, n ≤ 5 →
      (rewriteTagsAux repl l).take n = l.take n := by
  intro N
  induction N with
  | zero =>
    intro l hl n _
    have : l = [] := List.length_eq_zero.mp (Nat.le_zero.mp hl)
    subst this
    rw [rewriteTagsAux_nil]
  | succ N ih =>
    intro l hl n hn
    cases l with
    | nil => rw [rewriteTagsAux_nil]
    | cons c cs =>
      rw [rewriteTagsAux]
      by_cases hm : startsWith tagsMarker (c :: cs) = true
      · rw [if_pos hm]
        by_cases hline :
            (((c :: cs).drop 6).takeWhile (fun x => !(x = '\n'))).isEmpty = true
        · rw [if_pos hline]
          cases n with
          | zero => rfl
          | succ m =>
            rw [List.take_succ_cons, List.take_succ_cons,
              ih cs (by simpa using hl) m (by omega)]
        · rw [if_neg hline]
          have hdec := startsWith_marker_decomp hm
          rw [take_le_append _ (by
            rw [List.length_append, tagsMarker_length]; omega)]
          rw [take_le_append _ (by rw [tagsMarker_length]; omega)]
          conv_rhs => rw [hdec]
          rw [take_le_append _ (by rw [tagsMarker_length]; omega)]
      · rw [if_neg hm]
        cases n with
        | zero => rfl
        | succ m =>
          rw [List.take_succ_cons, List.take_succ_cons,
            ih cs (by simpa using hl) m (by omega)]

theorem rewriteTagsAux_not_marker (repl : Str) {l : Str}
    (h : startsWith tagsMarker l = false) :
    startsWith tagsMarker (rewriteTagsAux repl l) = false := by
  cases l with
  | nil => rw [rewriteTagsAux_nil]; exact h
  | cons c cs =>
    have hrw : rewriteTagsAux repl (c :: cs) = c :: rewriteTagsAux repl cs := by
      rw [rewriteTagsAux, if_neg (by rw [h]; exact Bool.false_ne_true)]
    rw [hrw]
    have ht : (c :: rewriteTagsAux repl cs).take 6 = (c :: cs).take 6 := by
      rw [show (6 : Nat) = 5 + 1 from rfl, List.take_succ_cons, List.take_succ_cons,
        rewriteTagsAux_take repl cs.length cs (le_refl _) 5 (le_refl _)]
    cases hsw : startsWith tagsMarker (c :: rewriteTagsAux repl cs) with
    | false => rfl
    | true =>
      have h6 := (startsWith_iff_take tagsMarker _).mp hsw
      rw [tagsMarker_length, ht] at h6
      have := (startsWith_iff_take tagsMarker (c :: cs)).mpr
        (by rwa [tagsMarker_length])
      rw [h] at this
      cases this

theorem rewriteTagsAux_append_no_bracket (repl : Str) :
    ∀ {pre : Str}, '[' ∉ pre → ∀ rest : Str,
      rewriteTagsAux repl (pre ++ rest) = pre ++ rewriteTagsAux repl rest := by
  intro pre
  induction pre with
  | nil => intro _ rest; rfl
  | cons p ps ih =>
    intro h rest
    have hp : ¬p = '[' := fun he => h (he ▸ List.mem_cons_self p ps)
    have hm : startsWith tagsMarker (p :: (ps ++ rest)) = false :=
      startsWith_marker_cons_ne hp _
    rw [List.cons_append, rewriteTagsAux,
      if_neg (by rw [hm]; exact Bool.false_ne_true),
      ih (fun hmem => h (List.mem_cons_of_mem _ hmem)) rest, List.cons_append]

theorem drop_length_takeWhile (p : Char → Bool) :
    ∀ l : Str, l.drop (l.takeWhile p).length = l.dropWhile p := by
  intro l
  induction l with
  | nil => rfl
  | cons c cs ih =>
    rw [List.takeWhile_cons, List.dropWhile_cons]
    by_cases hc : p c = true
    · rw [if_pos hc, if_pos hc, List.length_cons, List.drop_succ_cons, ih]
    · rw [if_neg hc, if_neg hc, List.length_nil, List.drop_zero]

theorem dropWhile_shape (p : Char → Bool) (l : Str) :
    l.dropWhile p = [] ∨
      ∃ x xs, l.dropWhile p = x :: xs ∧ p x = false := by
  induction l with
  | nil => exact Or.inl rfl
  | cons c cs ih =>
    rw [List.dropWhile_cons]
    by_cases hc : p c = true
    · rw [if_pos hc]; exact ih
    · rw [if_neg hc]
      exact Or.inr ⟨c, cs, rfl, by simpa using hc⟩

theorem rewriteTagsAux_nl_or_nil (repl : Str) {F : Str}
    (h : F = [] ∨ ∃ xs, F = '\n' :: xs) :
    (rewriteTagsAux repl F).takeWhile (fun x => !(x = '\n')) = [] := by
  rcases h with h | ⟨xs, h⟩
  · subst h
    rw [rewriteTagsAux_nil]
    rfl
  · subst h
    have hm : startsWith tagsMarker ('\n' :: xs) = false :=
      startsWith_marker_cons_ne (by decide) _
    rw [rewriteTagsAux, if_neg (by rw [hm]; exact Bool.false_ne_true)]
    rfl

theorem parseTagsAux_marker_empty {X : Str}
    (hX : X.takeWhile (fun x => !(x = '\n')) = []) :
    parseTagsAux (tagsMarker ++ X) = parseTagsAux ("Tags]".toList ++ X) := by
  show parseTagsAux ('[' :: ("Tags]".toList ++ X)) = _
  rw [parseTagsAux]
  have hsw : startsWith tagsMarker ('[' :: ("Tags]".toList ++ X)) = true :=
    startsWith_append tagsMarker X
  rw [if_pos hsw]
  have hdrop : (('[' :: ("Tags]".toList ++ X)).drop 6) = X := rfl
  rw [hdrop, hX]
  rfl

theorem parseTagsAux_marker_nonempty {X : Str}
    (hX : X.takeWhile (fun x => !(x = '\n')) ≠ []) :
    parseTagsAux (tagsMarker ++ X) =
      some (X.takeWhile (fun x => !(x = '\n'))) := by
  show parseTagsAux ('[' :: ("Tags]".toList ++ X)) = _
  rw [parseTagsAux]
  have hsw : startsWith tagsMarker ('[' :: ("Tags]".toList ++ X)) = true :=
    startsWith_append tagsMarker X
  rw [if_pos hsw]
  have hdrop : (('[' :: ("Tags]".toList ++ X)).drop 6) = X := rfl
  rw [hdrop]
  rw [if_neg (by
    intro hempty
    exact hX (List.isEmpty_iff.mp hempty))]

theorem parseTagsAux_skip_no_bracket :
    ∀ {pre : Str}, '[' ∉ pre → ∀ rest : Str,
      parseTagsAux (pre ++ rest) = parseTagsAux rest := by
  intro pre
  induction pre with
  | nil => intro _ rest; rfl
  | cons p ps ih =>
    intro h rest
    have hp : ¬p = '[' := fun he => h (he ▸ List.mem_cons_self p ps)
    have hm : startsWith tagsMarker (p :: (ps ++ rest)) = false :=
      startsWith_marker_cons_ne hp _
    rw [List.cons_append, parseTagsAux,
      if_neg (by rw [hm]; exact Bool.false_ne_true),
      ih (fun hmem => h (List.mem_cons_of_mem _ hmem)) rest]

theorem parseTagsAux_rewrite (repl : Str) (hnl : '\n' ∉ repl)
    (hne : repl ≠ []) :
    ∀ (N : Nat) (l : Str), l.length ≤ N → (parseTagsAux l).isSome = true →
      parseTagsAux (rewriteTagsAux repl l) = some repl := by
  intro N
  induction N with
  | zero =>
    intro l hl hsome
    have : l = [] := List.length_eq_zero.mp (Nat.le_zero.mp hl)
    subst this
    cases hsome
  | succ N ih =>
    intro l hl hsome
    cases l with
    | nil => cases hsome
    | cons c cs =>
      by_cases hm : startsWith tagsMarker (c :: cs) = true
      · have hdec := startsWith_marker_decomp hm
        have hmk : tagsMarker = '[' :: "Tags]".toList := rfl
        have hc : c = '[' ∧ cs = "Tags]".toList ++ (c :: cs).drop 6 := by
          rw [hmk, List.cons_append, List.cons.injEq] at hdec
          exact hdec
        obtain ⟨hceq, hcs⟩ := hc
        subst hceq
        by_cases hline :
            ((('[' :: cs).drop 6).takeWhile (fun x => !(x = '\n'))).isEmpty = true
        · -- marker with an empty remainder of its line: both the scan and
          -- the substitution skip it
          have hsome' : (parseTagsAux cs).isSome = true := by
            rw [parseTagsAux, if_pos hm, if_pos hline] at hsome
            exact hsome
          have hrest : ('[' :: cs).drop 6 = [] ∨
              ∃ xs, ('[' :: cs).drop 6 = '\n' :: xs := by
            rcases hsh : ('[' :: cs).drop 6 with _ | ⟨x, xs⟩
            · exact Or.inl rfl
            · rw [hsh, List.takeWhile_cons] at hline
              by_cases hx : x = '\n'
              · exact Or.inr ⟨xs, by rw [hx]⟩
              · rw [if_pos (by simpa using hx)] at hline
                cases hline
          have hskip : rewriteTagsAux repl cs =
              "Tags]".toList ++ rewriteTagsAux repl (('[' :: cs).drop 6) := by
            conv_lhs => rw [hcs]
            exact rewriteTagsAux_append_no_bracket repl (by decide) _
          have hrw : rewriteTagsAux repl ('[' :: cs) =
              '[' :: rewriteTagsAux repl cs := by
            rw [rewriteTagsAux, if_pos hm, if_pos hline]
          have hmark : rewriteTagsAux repl ('[' :: cs) =
              tagsMarker ++ rewriteTagsAux repl (('[' :: cs).drop 6) := by
            rw [hrw, hskip, hmk, List.cons_append]
          rw [hmark,
            parseTagsAux_marker_empty (rewriteTagsAux_nl_or_nil repl hrest),
            ← hskip]
          exact ih cs (by simpa using hl) hsome'
        · -- marker with content on its line: the content is replaced
          have hrw : rewriteTagsAux repl ('[' :: cs) =
              tagsMarker ++ (repl ++ rewriteTagsAux repl
                ((('[' :: cs).drop 6).drop
                  (((('[' :: cs).drop 6).takeWhile (fun x => !(x = '\n'))).length))) := by
            rw [rewriteTagsAux, if_pos hm, if_neg hline, List.append_assoc]
          have hdw : (('[' :: cs).drop 6).drop
              (((('[' :: cs).drop 6).takeWhile (fun x => !(x = '\n'))).length) =
              (('[' :: cs).drop 6).dropWhile (fun x => !(x = '\n')) :=
            drop_length_takeWhile _ _
          have hY : (rewriteTagsAux repl
              ((('[' :: cs).drop 6).dropWhile (fun x => !(x = '\n')))).takeWhile
                (fun x => !(x = '\n')) = [] := by
            apply rewriteTagsAux_nl_or_nil
            rcases dropWhile_shape (fun x => !(x = '\n')) (('[' :: cs).drop 6) with
              hs | ⟨x, xs, hs, hx⟩
            · exact Or.inl hs
            · right
              refine ⟨xs, ?_⟩
              rw [hs]
              have : x = '\n' := by simpa using hx
              rw [this]
          have hXtake : ((repl ++ rewriteTagsAux repl
              ((('[' :: cs).drop 6).dropWhile (fun x => !(x = '\n'))))).takeWhile
                (fun x => !(x = '\n')) = repl := by
            rw [takeWhile_append_all _ (fun x hx => by
              simp only [Bool.not_eq_eq_eq_not, Bool.not_true,
                decide_eq_false_iff_not]
              intro he
              exact hnl (he ▸ hx)), hY, List.append_nil]
          rw [hrw, hdw, parseTagsAux_marker_nonempty (by rw [hXtake]; exact hne),
            hXtake]
      · have hrw : rewriteTagsAux repl (c :: cs) = c :: rewriteTagsAux repl cs := by
          rw [rewriteTagsAux, if_neg hm]
        have hsome' : (parseTagsAux cs).isSome = true := by
          rw [parseTagsAux, if_neg hm] at hsome
          exact hsome
        have hnm : startsWith tagsMarker (c :: rewriteTagsAux repl cs) = false := by
          have := rewriteTagsAux_not_marker repl
            (l := c :: cs) (by simpa using hm)
          rwa [hrw] at this
        rw [hrw, parseTagsAux, if_neg (by rw [hnm]; exact Bool.false_ne_true)]
        exact ih cs (by simpa using hl) hsome'

theorem pySplitAux_no_space {t : Str}
    (h : ∀ c ∈ t, isPySpace c = false) :
    ∀ (rest acc : Str),
      pySplitAux (t ++ rest) acc = pySplitAux rest (t.reverse ++ acc) := by
  induction t with
  | nil => intro rest acc; simp
  | cons x xs ih =>
    intro rest acc
    have hx : isPySpace x = false := h x (List.mem_cons_self x xs)
    have hxs : ∀ c ∈ xs, isPySpace c = false :=
      fun c hc => h c (List.mem_cons_of_mem _ hc)
    simp only [List.cons_append, pySplitAux, hx, Bool.false_eq_true, if_false]
    rw [List.append_eq, ih hxs rest (x :: acc)]
    simp

theorem pySplitAux_space_acc (l : Str) {acc : Str} (hacc : acc ≠ []) :
    pySplitAux (' ' :: l) acc = acc.reverse :: pySplitAux l [] := by
  rw [pySplitAux]
  rw [if_pos (by rfl)]
  rw [if_neg (by
    intro hempty
    exact hacc (List.isEmpty_iff.mp hempty))]

theorem pySplitAux_space_nil (l : Str) :
    pySplitAux (' ' :: l) [] = pySplitAux l [] := rfl

theorem reverse_ne_nil {t : Str} (hne : t ≠ []) : t.reverse ≠ [] := by
  intro hempty
  have h2 := congrArg List.reverse hempty
  rw [List.reverse_reverse, List.reverse_nil] at h2
  exact hne h2

theorem pySplitAux_join :
    ∀ ts : List Str, (∀ t ∈ ts, t ≠ [] ∧ ∀ c ∈ t, isPySpace c = false) →
      pySplitAux (tagsJoin ts) [] = ts := by
  intro ts
  induction ts with
  | nil => intro _; rfl
  | cons t ts' ih =>
    intro h
    obtain ⟨hne, hns⟩ := h t (List.mem_cons_self _ _)
    cases ts' with
    | nil =>
      have h1 : pySplitAux (t ++ []) [] = pySplitAux [] (t.reverse ++ []) :=
        pySplitAux_no_space hns [] []
      rw [List.append_nil, List.append_nil] at h1
      rw [tagsJoin, h1, pySplitAux]
      rw [if_neg (fun hempty =>
        reverse_ne_nil hne (List.isEmpty_iff.mp hempty))]
      rw [List.reverse_reverse]
    | cons t2 ts'' =>
      rw [tagsJoin, List.append_assoc,
        pySplitAux_no_space hns ([' ', ' '] ++ tagsJoin (t2 :: ts'')) []]
      rw [List.append_nil]
      rw [show ([' ', ' '] ++ tagsJoin (t2 :: ts'') : Str) =
        ' ' :: (' ' :: tagsJoin (t2 :: ts'')) from rfl]
      rw [pySplitAux_space_acc _ (reverse_ne_nil hne)]
      rw [List.reverse_reverse, pySplitAux_space_nil]
      rw [ih (fun u hu => h u (List.mem_cons_of_mem _ hu))]

theorem pyStrip_eq_self {l : Str}
    (hhead : ∀ c, l.head? = some c → isPySpace c = false)
    (hlast : ∀ c, l.getLast? = some c → isPySpace c = false) :
    pyStrip l = l := by
  have h1 : l.dropWhile isPySpace = l := by
    cases l with
    | nil => rfl
    | cons c cs =>
      rw [List.dropWhile_cons,
        if_neg (by rw [hhead c rfl]; exact Bool.false_ne_true)]
  have h2 : l.reverse.dropWhile isPySpace = l.reverse := by
    cases hr : l.reverse with
    | nil => rfl
    | cons c cs =>
      have hc : l.getLast? = some c := by
        rw [← List.head?_reverse, hr]
        rfl
      rw [List.dropWhile_cons,
        if_neg (by rw [hlast c hc]; exact Bool.false_ne_true)]
  rw [pyStrip, h1, h2, List.reverse_reverse]

theorem mem_of_head?_eq {l : Str} {c : Char} (h : l.head? = some c) : c ∈ l := by
  cases l with
  | nil => cases h
  | cons a as =>
    have : a = c := by
      rw [List.head?_cons, Option.some.injEq] at h
      exact h
    rw [← this]
    exact List.mem_cons_self _ _

theorem mem_of_getLast?_eq :
    ∀ {l : Str} {c : Char}, l.getLast? = some c → c ∈ l := by
  intro l
  induction l with
  | nil => intro c h; cases h
  | cons a as ih =>
    intro c h
    cases as with
    | nil =>
      rw [List.getLast?_singleton, Option.some.injEq] at h
      rw [← h]
      exact List.mem_cons_self _ _
    | cons b m =>
      rw [List.getLast?_cons_cons] at h
      exact List.mem_cons_of_mem _ (ih h)

theorem tagsJoin_head {t : Str} (ts : List Str) (hne : t ≠ []) :
    (tagsJoin (t :: ts)).head? = t.head? := by
  cases t with
  | nil => exact absurd rfl hne
  | cons c cs =>
    cases ts with
    | nil => rfl
    | cons t2 ts' => rfl

theorem tagsJoin_getLast :
    ∀ ts : List Str, (∀ t ∈ ts, t ≠ []) → ts ≠ [] →
      ∃ l' c, tagsJoin ts = l' ++ [c] ∧ ∃ t ∈ ts, c ∈ t := by
  intro ts
  induction ts with
  | nil => intro _ hne; exact absurd rfl hne
  | cons t ts' ih =>
    intro h _
    cases ts' with
    | nil =>
      have hne : t ≠ [] := h t (List.mem_cons_self _ _)
      refine ⟨t.dropLast, t.getLast hne, ?_, t, List.mem_cons_self _ _,
        List.getLast_mem hne⟩
      rw [tagsJoin, List.dropLast_append_getLast hne]
    | cons t2 ts'' =>
      obtain ⟨l', c, hj, t', ht', hct'⟩ :=
        ih (fun u hu => h u (List.mem_cons_of_mem _ hu)) (by simp)
      refine ⟨(t ++ [' ', ' ']) ++ l', c, ?_, t', List.mem_cons_of_mem _ ht',
        hct'⟩
      rw [tagsJoin, List.append_assoc, List.append_assoc, hj,
        List.append_assoc]

theorem mem_tagsJoin :
    ∀ {ts : List Str} {c : Char}, c ∈ tagsJoin ts →
      c = ' ' ∨ ∃ t ∈ ts, c ∈ t := by
  intro ts
  induction ts with
  | nil => intro c h; cases h
  | cons t ts' ih =>
    intro c h
    cases ts' with
    | nil => exact Or.inr ⟨t, List.mem_cons_self _ _, h⟩
    | cons t2 ts'' =>
      rw [tagsJoin, List.append_assoc] at h
      rcases List.mem_append.mp h with h1 | h1
      · exact Or.inr ⟨t, List.mem_cons_self _ _, h1⟩
      · rcases List.mem_append.mp h1 with h2 | h2
        · rcases List.mem_cons.mp h2 with h3 | h3
          · exact Or.inl h3
          · rcases List.mem_cons.mp h3 with h4 | h4
            · exact Or.inl h4
            · cases h4
        · rcases ih h2 with h3 | ⟨u, hu, hcu⟩
          · exact Or.inl h3
          · exact Or.inr ⟨u, List.mem_cons_of_mem _ hu, hcu⟩

theorem pyStrip_subset {l : Str} {c : Char} (h : c ∈ pyStrip l) : c ∈ l := by
  rw [pyStrip, List.mem_reverse] at h
  have h1 := (List.dropWhile_sublist isPySpace).subset h
  rw [List.mem_reverse] at h1
  exact (List.dropWhile_sublist isPySpace).subset h1

theorem pyStrip_wf {t : Str} (h : wfTag t) : pyStrip t = t := by
  apply pyStrip_eq_self
  · intro c hc
    exact (h.2 c (mem_of_head?_eq hc)).1
  · intro c hc
    exact (h.2 c (mem_of_getLast?_eq hc)).1

theorem pyStrip_tagsJoin {ts : List Str} (h : ∀ t ∈ ts, wfTag t) :
    pyStrip (tagsJoin ts) = tagsJoin ts := by
  cases ts with
  | nil => rfl
  | cons t ts' =>
    apply pyStrip_eq_self
    · intro c hc
      rw [tagsJoin_head ts' (h t (List.mem_cons_self _ _)).1] at hc
      exact ((h t (List.mem_cons_self _ _)).2 c (mem_of_head?_eq hc)).1
    · intro c hc
      obtain ⟨l', c', hj, t', ht', hct'⟩ :=
        tagsJoin_getLast (t :: ts') (fun u hu => (h u hu).1) (by simp)
      rw [hj, List.getLast?_concat, Option.some.injEq] at hc
      rw [← hc]
      exact ((h t' ht').2 c' hct').1

theorem pySplit_tagsRepl {ts : List Str} (h : ∀ t ∈ ts, wfTag t) :
    pySplit (tagsRepl ts) = ts := by
  rw [tagsRepl, pySplit]
  rw [show ([' ', ' '] ++ pyStrip (tagsJoin ts) : Str) =
    ' ' :: (' ' :: pyStrip (tagsJoin ts)) from rfl]
  rw [pySplitAux_space_nil, pySplitAux_space_nil, pyStrip_tagsJoin h]
  exact pySplitAux_join ts
    (fun t ht => ⟨(h t ht).1, fun c hc => ((h t ht).2 c hc).1⟩)

theorem tagsRepl_no_nl {ts : List Str} (h : ∀ t ∈ ts, wfTag t) :
    '\n' ∉ tagsRepl ts := by
  intro hmem
  rw [tagsRepl] at hmem
  rcases List.mem_append.mp hmem with h1 | h1
  · rcases List.mem_cons.mp h1 with h2 | h2
    · cases h2
    · rcases List.mem_cons.mp h2 with h3 | h3
      · cases h3
      · cases h3
  · rcases mem_tagsJoin (pyStrip_subset h1) with h2 | ⟨t, ht, hct⟩
    · cases h2
    · have := ((h t ht).2 '\n' hct).1
      cases this

theorem tagsRepl_ne_nil (ts : List Str) : tagsRepl ts ≠ [] := by
  intro h
  cases h

theorem mem_dedupStripAux :
    ∀ (l acc : List Str) (x : Str),
      x ∈ dedupStripAux acc l ↔ x ∈ acc ∨ ∃ t ∈ l, pyStrip t = x := by
  intro l
  induction l with
  | nil =>
    intro acc x
    simp [dedupStripAux]
  | cons i rest ih =>
    intro acc x
    rw [dedupStripAux]
    by_cases hm : memS (pyStrip i) acc = true
    · rw [if_pos hm, ih]
      constructor
      · rintro (h1 | ⟨t, ht, hts⟩)
        · exact Or.inl h1
        · exact Or.inr ⟨t, List.mem_cons_of_mem _ ht, hts⟩
      · rintro (h1 | ⟨t, ht, hts⟩)
        · exact Or.inl h1
        · rcases List.mem_cons.mp ht with h2 | h2
          · subst h2
            exact Or.inl (hts ▸ memS_iff.mp hm)
          · exact Or.inr ⟨t, h2, hts⟩
    · rw [if_neg hm, ih]
      constructor
      · rintro (h1 | ⟨t, ht, hts⟩)
        · rcases List.mem_cons.mp h1 with h2 | h2
          · exact Or.inr ⟨i, List.mem_cons_self _ _, h2.symm⟩
          · exact Or.inl h2
        · exact Or.inr ⟨t, List.mem_cons_of_mem _ ht, hts⟩
      · rintro (h1 | ⟨t, ht, hts⟩)
        · exact Or.inl (List.mem_cons_of_mem _ h1)
        · rcases List.mem_cons.mp ht with h2 | h2
          · subst h2
            exact Or.inl (hts ▸ List.mem_cons_self _ _)
          · exact Or.inr ⟨t, h2, hts⟩

theorem nodup_dedupStripAux :
    ∀ (l acc : List Str), acc.Nodup → (dedupStripAux acc l).Nodup := by
  intro l
  induction l with
  | nil =>
    intro acc hacc
    rw [dedupStripAux]
    exact List.nodup_reverse.mpr hacc
  | cons i rest ih =>
    intro acc hacc
    rw [dedupStripAux]
    by_cases hm : memS (pyStrip i) acc = true
    · rw [if_pos hm]
      exact ih acc hacc
    · rw [if_neg hm]
      refine ih _ (List.nodup_cons.mpr ⟨?_, hacc⟩)
      intro hmem
      exact hm (memS_iff.mpr hmem)

theorem mem_retagUnion {o : List Str} {i : Option Str} {n r : List Str}
    {u : Str} (h : u ∈ retagUnion o i n r) : u ∈ o ∨ u ∈ n ∨ i = some u := by
  have hkept : ∀ {v : Str}, v ∈ retagKept o r ++ n → v ∈ o ∨ v ∈ n := by
    intro v hv
    rcases List.mem_append.mp hv with h1 | h1
    · exact Or.inl (List.mem_filter.mp h1).1
    · exact Or.inr h1
  cases i with
  | none =>
    rcases hkept h with h1 | h1
    · exact Or.inl h1
    · exact Or.inr (Or.inl h1)
  | some tid =>
    rw [retagUnion] at h
    by_cases hc : memS (lowerStr tid)
        ((retagKept o r ++ n).map lowerStr) = true
    · rw [if_pos hc] at h
      rcases hkept h with h1 | h1
      · exact Or.inl h1
      · exact Or.inr (Or.inl h1)
    · rw [if_neg hc] at h
      rcases List.mem_append.mp h with h1 | h1
      · rcases hkept h1 with h2 | h2
        · exact Or.inl h2
        · exact Or.inr (Or.inl h2)
      · rw [List.mem_singleton] at h1
        exact Or.inr (Or.inr (by rw [h1]))

theorem computeRetagTags_eq (o : List Str) (i : Option Str) (n r : List Str) :
    computeRetagTags o i n r = dedupStrip (retagUnion o i n r) := by
  have htags1 :
      (if (r.map lowerStr).isEmpty then o
       else o.filter (fun x => !memS (lowerStr x) (r.map lowerStr))) =
        retagKept o r := by
    by_cases hr : (r.map lowerStr).isEmpty = true
    · rw [if_pos hr, retagKept]
      have hmap : r.map lowerStr = [] := List.isEmpty_iff.mp hr
      rw [hmap]
      exact (List.filter_eq_self.mpr (fun a _ => by rfl)).symm
    · rw [if_neg hr, retagKept]
  simp only [computeRetagTags, retagUnion]
  rw [htags1]

theorem parseTags_of_some {b line : Str} (h : parseTagsAux b = some line) :
    parseTags b = pySplit line := by
  rw [parseTags, h]

/-- Claim C4: retag round trip, at the granularity of one test-case block.
With the original tags read from the block's tags line, rewriting the
block's tags line with the tag list computed by the retag `main` and
re-parsing the rewritten block yields exactly that list; the list is
duplicate-free and its members are exactly (original minus removed,
compared lower-cased) union the new tags, with the test id appended when
not already present.  Tags are assumed well formed: non-empty and free of
whitespace, brackets and backslashes (whitespace-split tags are always
non-empty and whitespace-free; the bracket and backslash conditions keep a
tag from forming a new tags marker or a substitution escape). -/
theorem retag_round_trip (block : Str) (test_id : Option Str)
    (new_tags remove_tags : List Str)
    (hblock : (parseTagsAux block).isSome = true)
    (hwfo : ∀ t ∈ parseTags block, wfTag t)
    (hwfn : ∀ t ∈ new_tags, wfTag t)
    (hwfi : ∀ t, test_id = some t → wfTag t) :
    parseTags (rewriteTags
        (computeRetagTags (parseTags block) test_id new_tags remove_tags)
        block) =
      computeRetagTags (parseTags block) test_id new_tags remove_tags ∧
    (computeRetagTags (parseTags block) test_id new_tags remove_tags).Nodup ∧
    ∀ t, t ∈ computeRetagTags (parseTags block) test_id new_tags remove_tags ↔
      t ∈ retagUnion (parseTags block) test_id new_tags remove_tags := by
  have hwfu : ∀ u ∈ retagUnion (parseTags block) test_id new_tags remove_tags,
      wfTag u := by
    intro u hu
    rcases mem_retagUnion hu with h | h | h
    · exact hwfo u h
    · exact hwfn u h
    · exact hwfi u h
  have hmem : ∀ t,
      t ∈ computeRetagTags (parseTags block) test_id new_tags remove_tags ↔
        t ∈ retagUnion (parseTags block) test_id new_tags remove_tags := by
    intro t
    rw [computeRetagTags_eq, dedupStrip, mem_dedupStripAux]
    constructor
    · rintro (h1 | ⟨u, hu, hut⟩)
      · cases h1
      · rw [← hut, pyStrip_wf (hwfu u hu)]
        exact hu
    · intro ht
      exact Or.inr ⟨t, ht, pyStrip_wf (hwfu t ht)⟩
  have hwfts : ∀ t ∈ computeRetagTags (parseTags block) test_id new_tags
      remove_tags, wfTag t := fun t ht => hwfu t ((hmem t).mp ht)
  refine ⟨?_, ?_, hmem⟩
  · have hp := parseTagsAux_rewrite
      (tagsRepl (computeRetagTags (parseTags block) test_id new_tags
        remove_tags))
      (tagsRepl_no_nl hwfts) (tagsRepl_ne_nil _) block.length block
      (le_refl _) hblock
    rw [rewriteTags, parseTags_of_some hp]
    exact pySplit_tagsRepl hwfts
  · rw [computeRetagTags_eq, dedupStrip]
    exact nodup_dedupStripAux _ [] List.nodup_nil

/-- Witness for claim C4 at a concrete block: original tags `a b`, removing
`a`, adding `x1`, with test id `tc_1`. -/
theorem retag_round_trip_witness :
    ((parseTagsAux "T\n    [Tags]  a  b\n    s\n".toList).isSome = true) ∧
    (∀ t ∈ parseTags "T\n    [Tags]  a  b\n    s\n".toList, wfTag t) ∧
    (∀ t ∈ ["x1".toList], wfTag t) ∧
    (∀ t : Str, (some "tc_1".toList : Option Str) = some t → wfTag t) ∧
    (parseTags (rewriteTags
        (computeRetagTags (parseTags "T\n    [Tags]  a  b\n    s\n".toList)
          (some "tc_1".toList) ["x1".toList] ["a".toList])
        "T\n    [Tags]  a  b\n    s\n".toList) =
      computeRetagTags (parseTags "T\n    [Tags]  a  b\n    s\n".toList)
        (some "tc_1".toList) ["x1".toList] ["a".toList] ∧
    (computeRetagTags (parseTags "T\n    [Tags]  a  b\n    s\n".toList)
        (some "tc_1".toList) ["x1".toList] ["a".toList]).Nodup ∧
    ∀ t, t ∈ computeRetagTags (parseTags "T\n    [Tags]  a  b\n    s\n".toList)
        (some "tc_1".toList) ["x1".toList] ["a".toList] ↔
      t ∈ retagUnion (parseTags "T\n    [Tags]  a  b\n    s\n".toList)
        (some "tc_1".toList) ["x1".toList] ["a".toList]) :=
  ⟨by decide, by decide, by decide,
    (fun t ht => by cases ht; decide),
    retag_round_trip "T\n    [Tags]  a  b\n    s\n".toList
      (some "tc_1".toList) ["x1".toList] ["a".toList] (by decide) (by decide)
      (by decide) (fun t ht => by cases ht; decide)⟩

/-- Claim C8 counterexample: two distinct files (`x/aaa.robot` and
`y/bbb.robot`) each define a keyword named `Kw`; the index keys are
namespaced by suite, so no duplicate is flagged, nothing is overwritten and
both entries are kept — contrary to the claim that any same-named pair
across distinct files is flagged with last-write-wins. -/
theorem duplicate_keys_cex :
    (buildIndex [c8a, c8b]).2 = [] ∧
    lookupA (buildIndex [c8a, c8b]).1 (mkKey "aaa".toList "Kw".toList) =
      some c8a.2 ∧
    lookupA (buildIndex [c8a, c8b]).1 (mkKey "bbb".toList "Kw".toList) =
      some c8b.2 ∧
    mkKey "aaa".toList "Kw".toList ≠ mkKey "bbb".toList "Kw".toList := by
  refine ⟨by decide, by decide, by decide, by decide⟩

/-- Claim C8 (amended): duplicates are detected on the full index key
(lower-cased suite name with dashes and underscores replaced, a dot, and
the block name): a key occurring at least twice among the parsed records is
flagged with a warning, exactly once per extra occurrence's collision, and
the index maps every key to the record parsed last (last write wins,
no merging); records from files with different base names never collide. -/
theorem duplicate_keys_rule (inserts : List (Str × Entry)) (k : Str) :
    (k ∈ (buildIndex inserts).2 ↔ 2 ≤ countK k inserts) ∧
    lookupA (buildIndex inserts).1 k =
      (inserts.reverse.find? (fun p => decide (p.1 = k))).map Prod.snd := by
  constructor
  · rw [buildIndex, buildIndexAux_warn]
    simp [lookupA]
  · rw [buildIndex, buildIndexAux_lookup]
    cases hfind : inserts.reverse.find? (fun p => decide (p.1 = k)) with
    | some q => rfl
    | none => rfl

/-- Claim C3 counterexample: the spec's literal match rule holds for the
name `foo` in the body consisting of two spaces, `foo`, a newline and
`bar` (two spaces before, end-of-line after), yet `update_affected`
records no match for that body, because the code's lookahead only accepts
an end-of-line at the very end of the string. -/
theorem affected_match_rule_cex :
    ClaimMatch "foo".toList "  foo\nbar".toList ∧
      update_affected ["foo".toList]
          [(([] : Str), ({ text := "  foo\nbar".toList } : Entry))] =
        [(([] : Str),
          ({ text := "  foo\nbar".toList, affected_by := [] } : Entry))] := by
  constructor
  · exact ⟨[], [' ', ' '], "foo".toList, "\nbar".toList,
      by decide, by decide, by decide, by decide⟩
  · decide

/-- Claim C3 (amended): `update_affected` records a match for a searched
name if and only if the name occurs in the body, case-insensitively,
preceded by two-or-more whitespace characters (any whitespace, not only
spaces) or a tab, and followed by two-or-more whitespace characters, a tab,
or the end of the body (where a single final newline also counts) — not an
arbitrary end-of-line. -/
theorem affected_match_rule (kb : List Str) (data : List (Str × Entry))
    (k : Str) (e : Entry) (n : Str) (hd : (k, e) ∈ data) (hn : n ∈ kb) :
    (k, upd_entry kb e) ∈ update_affected kb data ∧
      (lowerStr n ∈ (upd_entry kb e).affected_by ↔ MatchSpec n e.text) := by
  constructor
  · exact List.mem_map.mpr ⟨(k, e), hd, rfl⟩
  · rw [upd_entry_affected_mem]
    constructor
    · rintro ⟨m, hm, hf, he⟩
      rw [findInvocation_congr e.text he] at hf
      exact findInvocation_iff.mp hf
    · intro hms
      exact ⟨n, hn, findInvocation_iff.mpr hms, rfl⟩

/-- Witness for the amended claim C3 at a concrete input: name `ab` in the
body of two spaces, `ab`, two spaces. -/
theorem affected_match_rule_witness :
    (((([] : Str), ({ text := "  ab  ".toList } : Entry)) ∈
        [(([] : Str), ({ text := "  ab  ".toList } : Entry))]) ∧
      ("ab".toList ∈ ["ab".toList])) ∧
    ((([] : Str), upd_entry ["ab".toList] ({ text := "  ab  ".toList } : Entry)) ∈
        update_affected ["ab".toList]
          [(([] : Str), ({ text := "  ab  ".toList } : Entry))] ∧
      (lowerStr "ab".toList ∈
          (upd_entry ["ab".toList] ({ text := "  ab  ".toList } : Entry)).affected_by ↔
        MatchSpec "ab".toList "  ab  ".toList)) :=
  ⟨⟨by decide, by decide⟩,
    affected_match_rule ["ab".toList]
      [(([] : Str), ({ text := "  ab  ".toList } : Entry))] ([] : Str)
      ({ text := "  ab  ".toList } : Entry) "ab".toList (by decide) (by decide)⟩

/-- Claim C9: frame property of `update_affected`: the output index has
exactly the keys of the input, in order; every record keeps its `suite`,
`name`, `path`, `text`, `resources`, `id` and `tags` fields, only
`affected_by` being replaced; and the stored `affected_by` list is
lower-cased and duplicate-free. -/
theorem update_affected_frame (kb : List Str) (data : List (Str × Entry)) :
    (update_affected kb data).map Prod.fst = data.map Prod.fst ∧
      ∀ p ∈ data, (p.1, upd_entry kb p.2) ∈ update_affected kb data ∧
        (upd_entry kb p.2).suite = p.2.suite ∧
        (upd_entry kb p.2).name = p.2.name ∧
        (upd_entry kb p.2).path = p.2.path ∧
        (upd_entry kb p.2).text = p.2.text ∧
        (upd_entry kb p.2).resources = p.2.resources ∧
        (upd_entry kb p.2).id = p.2.id ∧
        (upd_entry kb p.2).tags = p.2.tags ∧
        (upd_entry kb p.2).affected_by.Nodup ∧
        ∀ x ∈ (upd_entry kb p.2).affected_by, lowerStr x = x := by
  constructor
  · simp [update_affected, List.map_map, Function.comp_def]
  · intro p hp
    refine ⟨List.mem_map.mpr ⟨p, hp, rfl⟩, rfl, rfl, rfl, rfl, rfl, rfl, rfl,
      List.nodup_dedup _, ?_⟩
    intro x hx
    exact canon_lower_fixed (show x ∈ canon _ from hx)

/-- Witness for claim C9 at a concrete input. -/
theorem update_affected_frame_witness :
    ((update_affected ["ab".toList] [(([] : Str), cexE1)]).map Prod.fst =
      [(([] : Str), cexE1)].map Prod.fst) ∧
    ((([] : Str), cexE1) ∈ [(([] : Str), cexE1)]) ∧
    (((([] : Str), cexE1).1, upd_entry ["ab".toList] cexE1) ∈
        update_affected ["ab".toList] [(([] : Str), cexE1)] ∧
      (upd_entry ["ab".toList] cexE1).suite = cexE1.suite ∧
      (upd_entry ["ab".toList] cexE1).name = cexE1.name ∧
      (upd_entry ["ab".toList] cexE1).path = cexE1.path ∧
      (upd_entry ["ab".toList] cexE1).text = cexE1.text ∧
      (upd_entry ["ab".toList] cexE1).resources = cexE1.resources ∧
      (upd_entry ["ab".toList] cexE1).id = cexE1.id ∧
      (upd_entry ["ab".toList] cexE1).tags = cexE1.tags ∧
      (upd_entry ["ab".toList] cexE1).affected_by.Nodup ∧
      ∀ x ∈ (upd_entry ["ab".toList] cexE1).affected_by, lowerStr x = x) :=
  ⟨(update_affected_frame ["ab".toList] [(([] : Str), cexE1)]).1, by decide,
    (update_affected_frame ["ab".toList] [(([] : Str), cexE1)]).2
      (([] : Str), cexE1) (by decide)⟩

/-- Claim C5: with a non-empty list of required tags, a test case appears in
the affected output if and only if its body matches some blacklisted name
and every required tag is present in its tag list, compared lower-cased. -/
theorem tag_filtering (kb tagsReq : List Str) (tcd : List (Str × Entry))
    (k : Str) (e : Entry) (htags : tagsReq ≠ [])
    (hnd : (tcd.map Prod.fst).Nodup) (hmem : (k, e) ∈ tcd) :
    (∃ e', (k, e') ∈ affectedTestCases kb tagsReq tcd) ↔
      ((∃ n ∈ kb, findInvocation n e.text = true) ∧
        ∀ t ∈ tagsReq, lowerStr t ∈ e.tags.map lowerStr) := by
  have htl : (tagsReq.map lowerStr).isEmpty = false := by
    cases tagsReq with
    | nil => exact absurd rfl htags
    | cons a l => rfl
  constructor
  · rintro ⟨e', he'⟩
    simp only [affectedTestCases] at he'
    obtain ⟨hup, hpred⟩ := List.mem_filter.mp he'
    obtain ⟨q, hq, hqe⟩ := List.mem_map.mp hup
    obtain ⟨q1, q2⟩ := q
    have hk : q1 = k := congrArg Prod.fst hqe
    have he2 : upd_entry kb q2 = e' := congrArg Prod.snd hqe
    subst hk
    have hq2 : q2 = e := nodup_keys_eq hnd hq hmem
    subst hq2
    rw [← he2] at hpred
    rw [Bool.and_eq_true, Bool.or_eq_true] at hpred
    obtain ⟨h1, h2⟩ := hpred
    constructor
    · apply upd_entry_affected_nonempty.mp
      intro hnil
      rw [Bool.not_eq_eq_eq_not, Bool.not_true, List.isEmpty_eq_false] at h1
      exact h1 hnil
    · rcases h2 with h2 | h2
      · rw [htl] at h2; cases h2
      · intro t ht
        have := List.all_eq_true.mp h2 (lowerStr t) (List.mem_map.mpr ⟨t, ht, rfl⟩)
        exact memS_iff.mp this
  · rintro ⟨⟨n, hn, hf⟩, htagmem⟩
    refine ⟨upd_entry kb e, ?_⟩
    simp only [affectedTestCases]
    apply List.mem_filter.mpr
    refine ⟨List.mem_map.mpr ⟨(k, e), hmem, rfl⟩, ?_⟩
    rw [Bool.and_eq_true, Bool.or_eq_true]
    constructor
    · rw [Bool.not_eq_eq_eq_not, Bool.not_true, List.isEmpty_eq_false]
      exact upd_entry_affected_nonempty.mpr ⟨n, hn, hf⟩
    · right
      apply List.all_eq_true.mpr
      intro t' ht'
      obtain ⟨t, ht, htt⟩ := List.mem_map.mp ht'
      rw [← htt]
      exact memS_iff.mpr (htagmem t ht)

/-- Witness for claim C5 at a concrete input: one test case whose body
invokes the blacklisted keyword `ab` and which carries the required tag. -/
theorem tag_filtering_witness :
    (["Smoke".toList] ≠ ([] : List Str)) ∧
    (([(([] : Str),
        ({ text := "  ab  ".toList, tags := ["smoke".toList] } : Entry))].map
        Prod.fst).Nodup) ∧
    ((([] : Str),
        ({ text := "  ab  ".toList, tags := ["smoke".toList] } : Entry)) ∈
      [(([] : Str),
        ({ text := "  ab  ".toList, tags := ["smoke".toList] } : Entry))]) ∧
    ((∃ e', (([] : Str), e') ∈ affectedTestCases ["ab".toList]
        ["Smoke".toList]
        [(([] : Str),
          ({ text := "  ab  ".toList, tags := ["smoke".toList] } : Entry))]) ↔
      ((∃ n ∈ ["ab".toList], findInvocation n
          ({ text := "  ab  ".toList, tags := ["smoke".toList] } : Entry).text
            = true) ∧
        ∀ t ∈ ["Smoke".toList], lowerStr t ∈
          ({ text := "  ab  ".toList, tags := ["smoke".toList] } : Entry).tags.map
            lowerStr)) :=
  ⟨by decide, by decide, by decide,
    tag_filtering ["ab".toList] ["Smoke".toList]
      [(([] : Str), ({ text := "  ab  ".toList, tags := ["smoke".toList] } : Entry))]
      ([] : Str) ({ text := "  ab  ".toList, tags := ["smoke".toList] } : Entry)
      (by decide) (by decide) (by decide)⟩

/-- Claim C10: a function wrapped by the `failsafe` decorator always returns
`None`: the wrapped function's return value is discarded, and any exception
it raises is swallowed. -/
theorem failsafe_returns_none {α ε β : Type} (func : α → Except ε β) (args : α) :
    failsafe func args = Except.ok none ∧
      (∀ b, func args = Except.ok b → failsafe func args = Except.ok none) ∧
      (∀ er, func args = Except.error er → failsafe func args = Except.ok none) := by
  refine ⟨?_, fun b _ => ?_, fun er _ => ?_⟩ <;>
    · unfold failsafe
      cases func args <;> rfl

/-- Witness for claim C10: a returning call and a raising call. -/
theorem failsafe_returns_none_witness :
    failsafe (fun _ : Nat => (Except.ok 0 : Except Unit Nat)) 1 = Except.ok none ∧
      failsafe (fun _ : Nat => (Except.error () : Except Unit Nat)) 1 =
        Except.ok none :=
  ⟨(failsafe_returns_none (fun _ : Nat => (Except.ok 0 : Except Unit Nat)) 1).2.1
      0 rfl,
    (failsafe_returns_none (fun _ : Nat => (Except.error () : Except Unit Nat))
      1).2.2 () rfl⟩

/-- Witness for the amended claim C1: the file-already-blacklisted branch at
a concrete state whose resource blacklist already contains the record's file
name, with a seed that is not in the record's affected-by list. -/
theorem affected_closure_branches_witness :
    (canon wS.kb = wS.kb) ∧ (wE.affected_by ≠ []) ∧ (basename wE.path ≠ []) ∧
    (memS (lowerStr "zz".toList) (accumulatedAffected wS "f1.k1".toList wE) = false) ∧
    (memS (basename wE.path) wS.rb = true) ∧
    (lowerStr wE.name ∈ (stepEntry "zz".toList wS "f1.k1".toList wE).kb ∧
      (stepEntry "zz".toList wS "f1.k1".toList wE).rb = wS.rb) :=
  ⟨by decide, by decide, by decide, by decide, by decide,
    (affected_closure_branches "zz".toList wS "f1.k1".toList wE (by decide)
      (by decide) (by decide)).2.1 (by decide) (Or.inl (by decide))⟩

end RF
